import Mathlib

/-!
Verification of the `code_executor` scheduler/worker core (autom8 repository).

The development shallowly embeds the scheduler in
`src/pyodide-session.service.ts` and the worker in `src/pyodide.worker.ts`:

* `getWorkerIndexForSession` (affinity router, SHA-256 based);
* the POSIX `path` operations (`join`, `normalize`, `basename`) used by the
  worker's `uploadFile` / `downloadFile` message cases;
* the scheduler's error classification of worker messages;
* the worker's `AsyncMutex` filesystem lock as a labelled transition system;
* the scheduler's slot table (`spawnWorker`, `replaceWorker`,
  `processQueueForWorker`, `sendTaskToWorker`, the timeout handler) as a
  state machine whose events mirror the Node event-loop reaction points.

Numbers are `Nat` with explicit `% 2 ^ 32` reductions where the source relies
on 32-bit words; strings are modelled as `List Char`, byte strings as
`List Nat` (each entry `< 256`).
-/

set_option maxRecDepth 4000

namespace Autom8

/-! ## SHA-256 (Node `crypto.createHash('sha256')`), on byte lists -/

/-- Reduction to a 32-bit word. -/
def w32 (x : Nat) : Nat := x % 2 ^ 32

/-- Rotate a 32-bit word right by `n` bits. -/
def rotr32 (x n : Nat) : Nat := w32 (x / 2 ^ n + x % 2 ^ n * 2 ^ (32 - n))

/-- Logical shift right. -/
def shr32 (x n : Nat) : Nat := x / 2 ^ n

/-- Bitwise complement of a 32-bit word. -/
def not32 (x : Nat) : Nat := w32 x ^^^ (2 ^ 32 - 1)

/-- SHA-256 big sigma 0. -/
def bsig0 (x : Nat) : Nat := rotr32 x 2 ^^^ rotr32 x 13 ^^^ rotr32 x 22

/-- SHA-256 big sigma 1. -/
def bsig1 (x : Nat) : Nat := rotr32 x 6 ^^^ rotr32 x 11 ^^^ rotr32 x 25

/-- SHA-256 small sigma 0. -/
def ssig0 (x : Nat) : Nat := rotr32 x 7 ^^^ rotr32 x 18 ^^^ shr32 x 3

/-- SHA-256 small sigma 1. -/
def ssig1 (x : Nat) : Nat := rotr32 x 17 ^^^ rotr32 x 19 ^^^ shr32 x 10

/-- SHA-256 choice function. -/
def ch (x y z : Nat) : Nat := (x &&& y) ^^^ (not32 x &&& z)

/-- SHA-256 majority function. -/
def maj (x y z : Nat) : Nat := (x &&& y) ^^^ (x &&& z) ^^^ (y &&& z)

/-- SHA-256 round constants, rounds 0–7. -/
def sha256K0 : List Nat :=
  [0x428a2f98, 0x71374491, 0xb5c0fbcf, 0xe9b5dba5, 0x3956c25b, 0x59f111f1, 0x923f82a4, 0xab1c5ed5]

/-- SHA-256 round constants, rounds 8–15. -/
def sha256K1 : List Nat :=
  [0xd807aa98, 0x12835b01, 0x243185be, 0x550c7dc3, 0x72be5d74, 0x80deb1fe, 0x9bdc06a7, 0xc19bf174]

/-- SHA-256 round constants, rounds 16–23. -/
def sha256K2 : List Nat :=
  [0xe49b69c1, 0xefbe4786, 0x0fc19dc6, 0x240ca1cc, 0x2de92c6f, 0x4a7484aa, 0x5cb0a9dc, 0x76f988da]

/-- SHA-256 round constants, rounds 24–31. -/
def sha256K3 : List Nat :=
  [0x983e5152, 0xa831c66d, 0xb00327c8, 0xbf597fc7, 0xc6e00bf3, 0xd5a79147, 0x06ca6351, 0x14292967]

/-- SHA-256 round constants, rounds 32–39. -/
def sha256K4 : List Nat :=
  [0x27b70a85, 0x2e1b2138, 0x4d2c6dfc, 0x53380d13, 0x650a7354, 0x766a0abb, 0x81c2c92e, 0x92722c85]

/-- SHA-256 round constants, rounds 40–47. -/
def sha256K5 : List Nat :=
  [0xa2bfe8a1, 0xa81a664b, 0xc24b8b70, 0xc76c51a3, 0xd192e819, 0xd6990624, 0xf40e3585, 0x106aa070]

/-- SHA-256 round constants, rounds 48–55. -/
def sha256K6 : List Nat :=
  [0x19a4c116, 0x1e376c08, 0x2748774c, 0x34b0bcb5, 0x391c0cb3, 0x4ed8aa4a, 0x5b9cca4f, 0x682e6ff3]

/-- SHA-256 round constants, rounds 56–63. -/
def sha256K7 : List Nat :=
  [0x748f82ee, 0x78a5636f, 0x84c87814, 0x8cc70208, 0x90befffa, 0xa4506ceb, 0xbef9a3f7, 0xc67178f2]

/-- The 64 SHA-256 round constants. -/
def sha256K : List Nat :=
  sha256K0 ++ sha256K1 ++ sha256K2 ++ sha256K3 ++ sha256K4 ++ sha256K5 ++ sha256K6 ++ sha256K7

/-- Working state of the SHA-256 compression function. -/
structure Sha256State where
  a : Nat
  b : Nat
  c : Nat
  d : Nat
  e : Nat
  f : Nat
  g : Nat
  h : Nat
  deriving Repr, DecidableEq

/-- SHA-256 initial hash value. -/
def sha256Init : Sha256State :=
  ⟨0x6a09e667, 0xbb67ae85, 0x3c6ef372, 0xa54ff53a, 0x510e527f, 0x9b05688c, 0x1f83d9ab, 0x5be0cd19⟩

/-- One SHA-256 round with round constant `k` and schedule word `w`. -/
def sha256Round (st : Sha256State) (kw : Nat × Nat) : Sha256State :=
  let t1 := w32 (st.h + bsig1 st.e + ch st.e st.f st.g + kw.1 + kw.2)
  let t2 := w32 (bsig0 st.a + maj st.a st.b st.c)
  ⟨w32 (t1 + t2), st.a, st.b, st.c, w32 (st.d + t1), st.e, st.f, st.g⟩

/-- Extend the 16 block words to the 64-entry message schedule. -/
def sha256Schedule (ws : List Nat) : List Nat :=
  (List.range 48).foldl
    (fun acc _ =>
      let n := acc.length
      acc ++ [w32 (ssig1 (acc.getD (n - 2) 0) + acc.getD (n - 7) 0 +
                   ssig0 (acc.getD (n - 15) 0) + acc.getD (n - 16) 0)])
    ws

/-- Group consecutive 4-byte runs (big-endian) into 32-bit words. -/
def bytesToWords : List Nat → List Nat
  | b0 :: b1 :: b2 :: b3 :: rest =>
      (((b0 * 256 + b1) * 256 + b2) * 256 + b3) :: bytesToWords rest
  | _ => []

/-- Compress one 64-byte block into the running hash state. -/
def sha256Compress (st : Sha256State) (block : List Nat) : Sha256State :=
  let ws := sha256Schedule (bytesToWords block)
  let r := (sha256K.zip ws).foldl sha256Round st
  ⟨w32 (st.a + r.a), w32 (st.b + r.b), w32 (st.c + r.c), w32 (st.d + r.d),
   w32 (st.e + r.e), w32 (st.f + r.f), w32 (st.g + r.g), w32 (st.h + r.h)⟩

/-- Split a byte list into 64-byte chunks. -/
def chunks64 (l : List Nat) : List (List Nat) :=
  if h : l = [] then []
  else l.take 64 :: chunks64 (l.drop 64)
termination_by l.length
decreasing_by
  simp only [List.length_drop]
  have : 0 < l.length := List.length_pos.mpr h
  omega

/-- SHA-256 padding: append `0x80`, zeros and the 64-bit big-endian bit length. -/
def sha256Pad (msg : List Nat) : List Nat :=
  let len := msg.length
  let bitLen := 8 * len
  let padZeros := (64 - (len + 9) % 64) % 64
  msg ++ [0x80] ++ List.replicate padZeros 0 ++
    [bitLen / 2 ^ 56 % 256, bitLen / 2 ^ 48 % 256, bitLen / 2 ^ 40 % 256, bitLen / 2 ^ 32 % 256,
     bitLen / 2 ^ 24 % 256, bitLen / 2 ^ 16 % 256, bitLen / 2 ^ 8 % 256, bitLen % 256]

/-- SHA-256 final state over a byte message. -/
def sha256Words (msg : List Nat) : Sha256State :=
  (chunks64 (sha256Pad msg)).foldl sha256Compress sha256Init

/-- Big-endian byte serialization of a 32-bit word. -/
def wordBytes (w : Nat) : List Nat :=
  [w / 2 ^ 24 % 256, w / 2 ^ 16 % 256, w / 2 ^ 8 % 256, w % 256]

/-- SHA-256 digest of a byte message, as 32 bytes. -/
def sha256 (msg : List Nat) : List Nat :=
  let st := sha256Words msg
  wordBytes st.a ++ wordBytes st.b ++ wordBytes st.c ++ wordBytes st.d ++
  wordBytes st.e ++ wordBytes st.f ++ wordBytes st.g ++ wordBytes st.h

/-! ## Hex encoding and `parseInt(_, 16)` -/

/-- Lowercase hex character of a digit (mirrors Node's `digest('hex')`). -/
def hexDigit (d : Nat) : Char :=
  if d < 10 then Char.ofNat (48 + d) else Char.ofNat (87 + d)

/-- Two lowercase hex characters of a byte. -/
def byteHex (b : Nat) : List Char := [hexDigit (b / 16), hexDigit (b % 16)]

/-- Hex string (as a character list) of a byte list. -/
def bytesToHex (bs : List Nat) : List Char := bs.flatMap byteHex

/-- Numeric value of a hex character (only applied to `0`-`9`, `a`-`f`). -/
def hexVal (c : Char) : Nat :=
  if c.toNat ≤ 57 then c.toNat - 48 else c.toNat - 87

/-- JavaScript `parseInt(s, 16)` on a string of valid hex digits. -/
def parseHex (cs : List Char) : Nat :=
  cs.foldl (fun acc c => acc * 16 + hexVal c) 0

/-! ## Affinity router (`getWorkerIndexForSession`) -/

/-- Embeds `getWorkerIndexForSession` from `pyodide-session.service.ts`:
`createHash('sha256').update(sessionId).digest('hex')`, `substring(0, 8)`,
`parseInt(_, 16)`, `% NUM_WORKERS`.  The session id string is given by its
UTF-8 byte sequence. -/
def getWorkerIndexForSession (numWorkers : Nat) (sessionId : List Nat) : Nat :=
  parseHex ((bytesToHex (sha256 sessionId)).take 8) % numWorkers

/-- Leading 32 bits of a digest (its first four bytes, big-endian). -/
def leading32 (digest : List Nat) : Nat :=
  ((digest.getD 0 0 * 256 + digest.getD 1 0) * 256 + digest.getD 2 0) * 256 + digest.getD 3 0

theorem hexVal_hexDigit : ∀ d < 16, hexVal (hexDigit d) = d := by decide

theorem parseHex_byteHex_step (acc b : Nat) (hb : b < 256) (l : List Char) :
    (byteHex b ++ l).foldl (fun acc c => acc * 16 + hexVal c) acc =
    l.foldl (fun acc c => acc * 16 + hexVal c) (acc * 256 + b) := by
  have h1 : b / 16 < 16 := by omega
  have h2 : b % 16 < 16 := Nat.mod_lt _ (by omega)
  simp only [byteHex, List.cons_append, List.nil_append, List.foldl_cons,
    hexVal_hexDigit _ h1, hexVal_hexDigit _ h2]
  have : (acc * 16 + b / 16) * 16 + b % 16 = acc * 256 + b := by omega
  rw [this]

theorem parseHex_take8 (b0 b1 b2 b3 : Nat) (rest : List Nat)
    (h0 : b0 < 256) (h1 : b1 < 256) (h2 : b2 < 256) (h3 : b3 < 256) :
    parseHex ((bytesToHex (b0 :: b1 :: b2 :: b3 :: rest)).take 8) =
    ((b0 * 256 + b1) * 256 + b2) * 256 + b3 := by
  have hsplit : (bytesToHex (b0 :: b1 :: b2 :: b3 :: rest)).take 8 =
      byteHex b0 ++ byteHex b1 ++ byteHex b2 ++ byteHex b3 := by
    simp [bytesToHex, byteHex, List.flatMap_cons, List.take]
  rw [hsplit]
  unfold parseHex
  rw [List.append_assoc, List.append_assoc, parseHex_byteHex_step 0 b0 h0]
  rw [parseHex_byteHex_step _ b1 h1]
  rw [parseHex_byteHex_step _ b2 h2]
  rw [show byteHex b3 = byteHex b3 ++ [] by simp, parseHex_byteHex_step _ b3 h3]
  simp

theorem sha256_shape (msg : List Nat) :
    sha256 msg =
      (sha256Words msg).a / 2 ^ 24 % 256 :: (sha256Words msg).a / 2 ^ 16 % 256 ::
      (sha256Words msg).a / 2 ^ 8 % 256 :: (sha256Words msg).a % 256 ::
      (wordBytes (sha256Words msg).b ++ wordBytes (sha256Words msg).c ++
       wordBytes (sha256Words msg).d ++ wordBytes (sha256Words msg).e ++
       wordBytes (sha256Words msg).f ++ wordBytes (sha256Words msg).g ++
       wordBytes (sha256Words msg).h) := by
  simp [sha256, wordBytes]

/-- The claim of `C1`: the routed slot is the leading 32 bits of the SHA-256
digest reduced modulo the pool size, and lies in `[0, numWorkers)`.
Determinism is immediate because `getWorkerIndexForSession` is a function of
the pool size and the session id alone. -/
theorem getWorkerIndexForSession_spec (numWorkers : Nat) (hN : 0 < numWorkers)
    (sessionId : List Nat) :
    getWorkerIndexForSession numWorkers sessionId =
      leading32 (sha256 sessionId) % numWorkers ∧
    getWorkerIndexForSession numWorkers sessionId < numWorkers := by
  constructor
  · unfold getWorkerIndexForSession
    rw [sha256_shape]
    rw [parseHex_take8 _ _ _ _ _ (Nat.mod_lt _ (by omega)) (Nat.mod_lt _ (by omega))
      (Nat.mod_lt _ (by omega)) (Nat.mod_lt _ (by omega))]
    simp [leading32]
  · exact Nat.mod_lt _ hN

/-- Witness for `getWorkerIndexForSession_spec` at pool size 2 and the
single-byte session id `[97]` (the string `a`). -/
theorem getWorkerIndexForSession_spec_witness :
    getWorkerIndexForSession 2 [97] = leading32 (sha256 [97]) % 2 ∧
    getWorkerIndexForSession 2 [97] < 2 :=
  getWorkerIndexForSession_spec 2 (by decide) [97]

/-! ## Substring search (JavaScript `String.prototype.includes`) -/

/-- Returns `true` when `needle` occurs contiguously in `hay` (the semantics
of JavaScript `hay.includes(needle)`). -/
def strIncludes : List Char → List Char → Bool
  | [], needle => needle.isPrefixOf []
  | c :: t, needle => needle.isPrefixOf (c :: t) || strIncludes t needle

theorem strIncludes_of_isPrefixOf (hay needle : List Char)
    (h : needle.isPrefixOf hay = true) : strIncludes hay needle = true := by
  cases hay with
  | nil => simpa [strIncludes] using h
  | cons c t => simp [strIncludes, h]

theorem strIncludes_append_left (a b : List Char) (c : Char) (n : List Char)
    (hc : c ∉ a) : strIncludes (a ++ b) (c :: n) = strIncludes b (c :: n) := by
  induction a with
  | nil => simp
  | cons d a ih =>
      have hcd : (c == d) = false := by
        simp only [List.mem_cons, not_or] at hc
        simp [hc.1]
      simp only [List.cons_append, strIncludes, List.isPrefixOf, hcd,
        Bool.false_and, Bool.false_or]
      exact ih (by simp only [List.mem_cons, not_or] at hc; exact hc.2)

theorem isPrefixOf_append_single (n : List Char) (c : Char) (hc : c ∉ n) :
    ∀ s : List Char, n.isPrefixOf (s ++ [c]) = n.isPrefixOf s := by
  induction n with
  | nil => intro s; simp [List.isPrefixOf]
  | cons d n ih =>
      intro s
      simp only [List.mem_cons, not_or] at hc
      cases s with
      | nil =>
          have hdc : (d == c) = false := by
            have : d ≠ c := fun h => hc.1 h.symm
            simp [this]
          simp [List.isPrefixOf, hdc]
      | cons e s =>
          simp only [List.cons_append, List.isPrefixOf, List.append_eq]
          rw [ih hc.2 s]

theorem strIncludes_append_single (p : List Char) (c : Char) (n : List Char)
    (hn : n ≠ []) (hc : c ∉ n) :
    strIncludes (p ++ [c]) n = strIncludes p n := by
  induction p with
  | nil =>
      cases n with
      | nil => exact absurd rfl hn
      | cons d n' =>
          simp only [List.nil_append, strIncludes]
          rw [show (c :: ([] : List Char)) = [] ++ [c] by simp,
            isPrefixOf_append_single _ _ hc]
          exact Bool.or_self _
  | cons d p ih =>
      simp only [List.cons_append, strIncludes, List.append_eq]
      rw [show d :: (p ++ [c]) = (d :: p) ++ [c] by simp,
        isPrefixOf_append_single _ _ hc, ih]

/-! ## Scheduler-side error classification (`spawnWorker`'s message handler) -/

/-- Error classes the scheduler can surface to a caller.  The first three are
the NestJS exception classes the service constructs
(`NotFoundException`, `InternalServerErrorException`,
`RequestTimeoutException`); `validation` stands for a request-validation
class (NestJS `BadRequestException`), the `Validation` kind of the spec's
taxonomy, which the service never constructs. -/
inductive ErrKind where
  | notFound
  | internal
  | timeout
  | validation
  deriving DecidableEq, Repr

/-- Substring the scheduler looks for in a worker error message. -/
def sessionMarker : List Char := "Session with ID".toList

/-- Embeds the `msg.type === 'error'` branch of the scheduler's worker
message handler: a message containing `Session with ID` becomes a
`NotFoundException`, anything else an `InternalServerErrorException`. -/
def classifyWorkerError (errorMsg : List Char) : ErrKind :=
  if strIncludes errorMsg sessionMarker then .notFound else .internal

/-! Worker error message texts (from `pyodide.worker.ts`). -/

/-- Error text of the worker's `uploadFile` / `executeCode` unknown-session
check. -/
def sessionNotFoundMsg (sessionId workerId : List Char) : List Char :=
  "Session with ID \"".toList ++ sessionId ++ "\" not found on worker #".toList ++
    workerId ++ ".".toList

/-- Error text of the worker's `downloadFile` unknown-session check. -/
def sessionNotFoundShortMsg (sessionId : List Char) : List Char :=
  "Session with ID \"".toList ++ sessionId ++ "\" not found.".toList

/-- Error text of the worker's `uploadFile` filename check. -/
def invalidFilenameMsg : List Char :=
  "Invalid filename. Subdirectories are not allowed.".toList

/-- Error text of the worker's `downloadFile` path-traversal guard. -/
def traversalMsg : List Char :=
  "Path traversal attempt detected. Access denied.".toList

/-- Error text of the worker's `downloadFile` existence check. -/
def fileNotFoundMsg (userPath : List Char) : List Char :=
  "File not found at path: \"".toList ++ userPath ++ "\"".toList

theorem classify_sessionNotFoundShortMsg (sessionId : List Char) :
    classifyWorkerError (sessionNotFoundShortMsg sessionId) = .notFound := by
  have hdecomp : "Session with ID \"".toList = sessionMarker ++ [' ', '\"'] := by decide
  have hpre : sessionMarker.isPrefixOf (sessionNotFoundShortMsg sessionId) = true := by
    unfold sessionNotFoundShortMsg
    rw [hdecomp, List.append_assoc]
    induction sessionMarker with
    | nil => simp [List.isPrefixOf]
    | cons c t ih => simp [List.isPrefixOf, ih]
  simp [classifyWorkerError, strIncludes_of_isPrefixOf _ _ hpre]

theorem classify_sessionNotFoundMsg (sessionId workerId : List Char) :
    classifyWorkerError (sessionNotFoundMsg sessionId workerId) = .notFound := by
  have hdecomp : "Session with ID \"".toList = sessionMarker ++ [' ', '\"'] := by decide
  have hpre : sessionMarker.isPrefixOf (sessionNotFoundMsg sessionId workerId) = true := by
    unfold sessionNotFoundMsg
    rw [hdecomp, List.append_assoc]
    induction sessionMarker with
    | nil => simp [List.isPrefixOf]
    | cons c t ih => simp [List.isPrefixOf, ih]
  simp [classifyWorkerError, strIncludes_of_isPrefixOf _ _ hpre]

theorem classify_fileNotFoundMsg (userPath : List Char)
    (hp : strIncludes userPath sessionMarker = false) :
    classifyWorkerError (fileNotFoundMsg userPath) = .internal := by
  have hmarker : sessionMarker = 'S' :: "ession with ID".toList := by decide
  have hS : 'S' ∉ "File not found at path: \"".toList := by decide
  have hq : '\"' ∉ sessionMarker := by decide
  have h1 : strIncludes (fileNotFoundMsg userPath) sessionMarker =
      strIncludes (userPath ++ ['\"']) sessionMarker := by
    unfold fileNotFoundMsg
    rw [List.append_assoc, show ("\"".toList : List Char) = ['\"'] by decide, hmarker]
    exact strIncludes_append_left _ _ _ _ hS
  have h2 : strIncludes (userPath ++ ['\"']) sessionMarker =
      strIncludes userPath sessionMarker :=
    strIncludes_append_single _ _ _ (by decide) hq
  simp [classifyWorkerError, h1, h2, hp]

/-! ## POSIX path operations (Node `path` module as used by the worker) -/

/-- Split a path on `/` separators (keeping empty segments, as
`String.prototype.split('/')` would). -/
def splitSlash : List Char → List (List Char)
  | [] => [[]]
  | c :: t =>
      if c = '/' then [] :: splitSlash t
      else
        match splitSlash t with
        | [] => [[c]]
        | s :: ss => (c :: s) :: ss

/-- One step of Node's `normalizeString` segment resolution: drop empty and
`.` segments; on `..` pop the previous segment unless there is none or it is
itself `..`, in which case keep the `..` exactly when the path is relative
(`allowAboveRoot`). -/
def normStep (allowAboveRoot : Bool) (res : List (List Char)) (seg : List Char) :
    List (List Char) :=
  if seg = [] ∨ seg = ['.'] then res
  else if seg = ['.', '.'] then
    match res.getLast? with
    | some last =>
        if last ≠ ['.', '.'] then res.dropLast
        else if allowAboveRoot then res ++ [seg] else res
    | none => if allowAboveRoot then res ++ [seg] else res
  else res ++ [seg]

/-- Node's `normalizeString`: resolve `.` and `..` across all segments. -/
def normalizeSegs (allowAboveRoot : Bool) (segs : List (List Char)) :
    List (List Char) :=
  segs.foldl (normStep allowAboveRoot) []

/-- Whether a path starts with `/`. -/
def isAbsolutePath (p : List Char) : Bool :=
  match p with
  | [] => false
  | c :: _ => c == '/'

/-- Whether a path ends with `/`. -/
def hasTrailingSlash (p : List Char) : Bool :=
  match p.getLast? with
  | some c => c == '/'
  | none => false

/-- Join segments with `/` separators. -/
def joinSegs : List (List Char) → List Char
  | [] => []
  | [s] => s
  | s :: rest => s ++ '/' :: joinSegs rest

/-- Node `path.posix.normalize`. -/
def normalizePath (p : List Char) : List Char :=
  if p = [] then ['.']
  else
    let abs := isAbsolutePath p
    let trail := hasTrailingSlash p
    let res := joinSegs (normalizeSegs (!abs) (splitSlash p))
    if res = [] then
      if abs then ['/'] else if trail then ['.', '/'] else ['.']
    else
      (if abs then ['/'] else []) ++ res ++ (if trail then ['/'] else [])

/-- Node `path.posix.join` of two parts: empty parts are skipped, the rest
are joined with `/` and normalized. -/
def joinPaths (a b : List Char) : List Char :=
  if a = [] then (if b = [] then ['.'] else normalizePath b)
  else if b = [] then normalizePath a
  else normalizePath (a ++ '/' :: b)

/-- Node `path.posix.basename`: strip trailing separators, then take the
part after the last separator. -/
def basename (p : List Char) : List Char :=
  ((p.reverse.dropWhile (· = '/')).takeWhile (· ≠ '/')).reverse

theorem basename_no_slash (p : List Char) : '/' ∉ basename p := by
  intro h
  rw [basename, List.mem_reverse] at h
  simpa using List.mem_takeWhile_imp h

theorem slash_mem_basename_ne (name : List Char) (h : '/' ∈ name) :
    basename name ≠ name := by
  intro heq
  exact basename_no_slash name (by rw [heq]; exact h)

theorem splitSlash_no_slash (s : List Char) (h : '/' ∉ s) : splitSlash s = [s] := by
  induction s with
  | nil => rfl
  | cons c t ih =>
      simp only [List.mem_cons, not_or] at h
      have hc : ¬ c = '/' := fun hne => h.1 hne.symm
      simp [splitSlash, hc, ih h.2]

theorem splitSlash_append_slash (a b : List Char) (h : '/' ∉ a) :
    splitSlash (a ++ '/' :: b) = a :: splitSlash b := by
  induction a with
  | nil => simp [splitSlash]
  | cons c t ih =>
      simp only [List.mem_cons, not_or] at h
      have hc : ¬ c = '/' := fun hne => h.1 hne.symm
      simp only [List.cons_append, splitSlash, hc, if_false, List.append_eq]
      rw [ih h.2]

/-! ## Worker `uploadFile` / `downloadFile` message cases (`pyodide.worker.ts`) -/

/-- Host directory holding all session workspaces. -/
def SESSIONS_BASE_PATH : List Char := "./pyodide_sessions".toList

/-- Terminal reply of a worker message case. -/
inductive WorkerReply where
  | fileUploaded (filename : List Char)
  | fileDownloaded (path : List Char)
  | error (msg : List Char)
  deriving DecidableEq, Repr

/-- Embeds the `uploadFile` message case: unknown-session check, then
`path.basename` bare-name check, then the write into the session workspace.
The second component lists the host paths written (`fs.writeFileSync`);
mounting and unmounting of the virtual filesystem carry no host effect. -/
def uploadFileCase (sessions : List (List Char)) (workerId sessionId originalname : List Char) :
    WorkerReply × List (List Char) :=
  if sessions.contains sessionId = false then
    (.error (sessionNotFoundMsg sessionId workerId), [])
  else
    let sessionHostPath := joinPaths SESSIONS_BASE_PATH sessionId
    let filename := basename originalname
    if filename ≠ originalname then (.error invalidFilenameMsg, [])
    else (.fileUploaded filename, [joinPaths sessionHostPath filename])

/-- Embeds the `downloadFile` message case: unknown-session check, the
`path.normalize(path.join(...))` resolution, the `startsWith` traversal
guard, the `fs.existsSync` check, then the read.  `fsExists` abstracts the
host filesystem; the second component lists the host paths read
(`fs.readFileSync`). -/
def downloadFileCase (sessions : List (List Char)) (fsExists : List Char → Bool)
    (sessionId userPath : List Char) : WorkerReply × List (List Char) :=
  if sessions.contains sessionId = false then
    (.error (sessionNotFoundShortMsg sessionId), [])
  else
    let sessionHostPath := joinPaths SESSIONS_BASE_PATH sessionId
    let requestedHostPath := normalizePath (joinPaths sessionHostPath userPath)
    if sessionHostPath.isPrefixOf requestedHostPath = false then (.error traversalMsg, [])
    else if fsExists requestedHostPath = false then (.error (fileNotFoundMsg userPath), [])
    else (.fileDownloaded requestedHostPath, [requestedHostPath])

/-- Directory containment: `p` is the directory `root` itself or lies
strictly below it (its remainder begins at a `/` separator). -/
def withinDir (root p : List Char) : Bool :=
  p == root || (root ++ ['/']).isPrefixOf p

theorem hasTrailingSlash_append (a b : List Char) (hb : b ≠ []) :
    hasTrailingSlash (a ++ '/' :: b) = hasTrailingSlash b := by
  unfold hasTrailingSlash
  rw [List.getLast?_append_cons]
  cases b with
  | nil => exact absurd rfl hb
  | cons x xs => rw [List.getLast?_cons_cons]

theorem joinPaths_base_sid (sid : List Char) (hne : sid ≠ []) (hslash : '/' ∉ sid)
    (hdot : sid ≠ ['.']) (hdotdot : sid ≠ ['.', '.']) :
    joinPaths SESSIONS_BASE_PATH sid = "pyodide_sessions/".toList ++ sid := by
  have hbase : SESSIONS_BASE_PATH = ['.'] ++ '/' :: "pyodide_sessions".toList := by decide
  have hP : '/' ∉ "pyodide_sessions".toList := by decide
  rw [joinPaths, if_neg (by decide), if_neg hne, hbase]
  have hshape : (['.'] ++ '/' :: "pyodide_sessions".toList) ++ '/' :: sid =
      ['.'] ++ '/' :: ("pyodide_sessions".toList ++ '/' :: sid) := by simp
  rw [hshape, normalizePath]
  rw [if_neg (by simp)]
  have habs : isAbsolutePath (['.'] ++ '/' :: ("pyodide_sessions".toList ++ '/' :: sid)) = false := by
    simp [isAbsolutePath]
  have htrail : hasTrailingSlash (['.'] ++ '/' :: ("pyodide_sessions".toList ++ '/' :: sid)) = false := by
    rw [hasTrailingSlash_append _ _ (by simp [hne]),
      hasTrailingSlash_append _ _ hne]
    unfold hasTrailingSlash
    cases hl : sid.getLast? with
    | none => rfl
    | some c =>
        have hc : c ∈ sid := List.mem_of_mem_getLast? (by rw [hl]; exact rfl)
        have : ¬ c = '/' := fun he => hslash (he ▸ hc)
        simp [this]
  have hsplit : splitSlash (['.'] ++ '/' :: ("pyodide_sessions".toList ++ '/' :: sid)) =
      ['.'] :: "pyodide_sessions".toList :: [sid] := by
    rw [splitSlash_append_slash _ _ (by decide),
      splitSlash_append_slash _ _ hP, splitSlash_no_slash _ hslash]
  rw [habs, htrail, hsplit]
  have hsegs : normalizeSegs true [['.'], "pyodide_sessions".toList, sid] =
      ["pyodide_sessions".toList, sid] := by
    simp only [normalizeSegs, List.foldl_cons, List.foldl_nil]
    rw [show normStep true [] ['.'] = [] by decide,
      show normStep true [] "pyodide_sessions".toList = ["pyodide_sessions".toList] by decide]
    unfold normStep
    rw [if_neg (by simp [hne, hdot]), if_neg hdotdot]
    simp
  simp only [Bool.not_false, hsegs]
  have hjs : joinSegs ["pyodide_sessions".toList, sid] =
      "pyodide_sessions".toList ++ '/' :: sid := by
    simp [joinSegs]
  rw [hjs]
  simp only [if_neg (by simp : ¬ ("pyodide_sessions".toList ++ '/' :: sid = []))]
  simp

theorem resolve_passwd (sid : List Char) (hne : sid ≠ []) (hslash : '/' ∉ sid)
    (hdot : sid ≠ ['.']) (hdotdot : sid ≠ ['.', '.']) :
    joinPaths ("pyodide_sessions/".toList ++ sid) "../../etc/passwd".toList =
      "etc/passwd".toList := by
  have hP : '/' ∉ "pyodide_sessions".toList := by decide
  rw [joinPaths, if_neg (by simp), if_neg (by decide)]
  have hshape : ("pyodide_sessions/".toList ++ sid) ++ '/' :: "../../etc/passwd".toList =
      "pyodide_sessions".toList ++ '/' :: (sid ++ '/' :: "../../etc/passwd".toList) := by
    rw [show "pyodide_sessions/".toList = "pyodide_sessions".toList ++ ['/'] by decide]
    simp
  rw [hshape, normalizePath]
  rw [if_neg (by simp)]
  have habs : isAbsolutePath
      ("pyodide_sessions".toList ++ '/' :: (sid ++ '/' :: "../../etc/passwd".toList)) = false := by
    simp [isAbsolutePath]
  have htrail : hasTrailingSlash
      ("pyodide_sessions".toList ++ '/' :: (sid ++ '/' :: "../../etc/passwd".toList)) = false := by
    rw [hasTrailingSlash_append _ _ (by simp)]
    rw [show ((sid ++ '/' :: "../../etc/passwd".toList) : List Char) =
      sid ++ '/' :: "../../etc/passwd".toList from rfl]
    rw [hasTrailingSlash_append _ _ (by decide)]
    decide
  have hsplit : splitSlash
      ("pyodide_sessions".toList ++ '/' :: (sid ++ '/' :: "../../etc/passwd".toList)) =
      "pyodide_sessions".toList :: sid :: splitSlash "../../etc/passwd".toList := by
    rw [splitSlash_append_slash _ _ hP, splitSlash_append_slash _ _ hslash]
  have hsplit2 : splitSlash "../../etc/passwd".toList =
      [['.', '.'], ['.', '.'], "etc".toList, "passwd".toList] := by decide
  rw [habs, htrail, hsplit, hsplit2]
  have hsegs : normalizeSegs true
      ["pyodide_sessions".toList, sid, ['.', '.'], ['.', '.'], "etc".toList, "passwd".toList] =
      ["etc".toList, "passwd".toList] := by
    simp only [normalizeSegs, List.foldl_cons, List.foldl_nil]
    rw [show normStep true [] "pyodide_sessions".toList = ["pyodide_sessions".toList] by decide]
    rw [show normStep true ["pyodide_sessions".toList] sid = ["pyodide_sessions".toList, sid] from by
      unfold normStep
      rw [if_neg (by simp [hne, hdot]), if_neg hdotdot]
      simp]
    rw [show normStep true ["pyodide_sessions".toList, sid] ['.', '.'] = ["pyodide_sessions".toList] from by
      unfold normStep
      rw [if_neg (by decide), if_pos rfl]
      have hl : List.getLast? [("pyodide_sessions".toList : List Char), sid] = some sid := by
        rw [List.getLast?_cons_cons]
        rfl
      rw [hl]
      simp [hdotdot, List.dropLast]]
    rw [show normStep true ["pyodide_sessions".toList] ['.', '.'] = [] by decide]
    rw [show normStep true [] "etc".toList = ["etc".toList] by decide]
    rw [show normStep true ["etc".toList] "passwd".toList = ["etc".toList, "passwd".toList] by decide]
  simp only [Bool.not_false, hsegs]
  rw [show joinSegs ["etc".toList, "passwd".toList] = "etc/passwd".toList by decide]
  rw [if_neg (by decide)]
  decide

/-- Amended claim of `C6`: for an existing session whose id is a plain path
segment, `downloadFile` (1) rejects with the path-traversal error whenever
the resolved path does not extend the workspace root as a string, (2) always
rejects `../../etc/passwd`, and (3) only ever reads host paths that extend
the workspace root as a string — which, as `downloadFileCase_escape_cx`
shows, does not confine reads to the workspace directory itself. -/
theorem downloadFileCase_traversal_guard (sessions : List (List Char))
    (fsExists : List Char → Bool) (sessionId : List Char)
    (hmem : sessions.contains sessionId = true)
    (hne : sessionId ≠ []) (hslash : '/' ∉ sessionId)
    (hdot : sessionId ≠ ['.']) (hdotdot : sessionId ≠ ['.', '.']) :
    (∀ userPath : List Char,
        (joinPaths SESSIONS_BASE_PATH sessionId).isPrefixOf
          (normalizePath (joinPaths (joinPaths SESSIONS_BASE_PATH sessionId) userPath)) = false →
        downloadFileCase sessions fsExists sessionId userPath = (.error traversalMsg, [])) ∧
    downloadFileCase sessions fsExists sessionId "../../etc/passwd".toList =
      (.error traversalMsg, []) ∧
    (∀ userPath q, q ∈ (downloadFileCase sessions fsExists sessionId userPath).2 →
        (joinPaths SESSIONS_BASE_PATH sessionId).isPrefixOf q = true) := by
  have hmemne : ¬ sessions.contains sessionId = false := by rw [hmem]; simp
  refine ⟨?_, ?_, ?_⟩
  · intro userPath hguard
    simp only [downloadFileCase]
    rw [if_neg hmemne, if_pos hguard]
  · have hroot := joinPaths_base_sid sessionId hne hslash hdot hdotdot
    have hres := resolve_passwd sessionId hne hslash hdot hdotdot
    have hpre : (joinPaths SESSIONS_BASE_PATH sessionId).isPrefixOf
        (normalizePath (joinPaths (joinPaths SESSIONS_BASE_PATH sessionId)
          "../../etc/passwd".toList)) = false := by
      rw [hroot, hres, show normalizePath "etc/passwd".toList = "etc/passwd".toList by decide]
      rw [show "pyodide_sessions/".toList = 'p' :: "yodide_sessions/".toList by decide]
      simp [List.isPrefixOf]
    simp only [downloadFileCase]
    rw [if_neg hmemne, if_pos hpre]
  · intro userPath q hq
    simp only [downloadFileCase] at hq
    by_cases h1 : sessions.contains sessionId = false
    · rw [if_pos h1] at hq
      simp at hq
    · rw [if_neg h1] at hq
      by_cases h2 : (joinPaths SESSIONS_BASE_PATH sessionId).isPrefixOf
          (normalizePath (joinPaths (joinPaths SESSIONS_BASE_PATH sessionId) userPath)) = false
      · rw [if_pos h2] at hq
        simp at hq
      · rw [if_neg h2] at hq
        by_cases h3 : fsExists (normalizePath (joinPaths
            (joinPaths SESSIONS_BASE_PATH sessionId) userPath)) = false
        · rw [if_pos h3] at hq
          simp at hq
        · rw [if_neg h3] at hq
          simp only [List.mem_singleton] at hq
          subst hq
          exact Bool.of_not_eq_false h2

/-- Witness for `downloadFileCase_traversal_guard`: the session `abc` rejects
`../../etc/passwd` with the traversal error. -/
theorem downloadFileCase_traversal_guard_witness :
    downloadFileCase ["abc".toList] (fun _ => true) "abc".toList
      "../../etc/passwd".toList = (.error traversalMsg, []) :=
  (downloadFileCase_traversal_guard ["abc".toList] (fun _ => true) "abc".toList
    (by decide) (by decide) (by decide) (by decide) (by decide)).2.1

/-- Counterexample to `C6`: for session `abc`, the request `../abcd/x`
resolves to `pyodide_sessions/abcd/x`, which merely extends the workspace
root `pyodide_sessions/abc` as a string; the guard passes and the worker
reads a host path outside the session's workspace directory. -/
theorem downloadFileCase_escape_cx :
    downloadFileCase ["abc".toList] (fun _ => true) "abc".toList "../abcd/x".toList =
      (.fileDownloaded "pyodide_sessions/abcd/x".toList, ["pyodide_sessions/abcd/x".toList]) ∧
    withinDir "pyodide_sessions/abc".toList "pyodide_sessions/abcd/x".toList = false := by
  decide

/-- Amended claim of `C7`: a filename containing a path separator makes
`uploadFile` fail before any write with the invalid-filename error, whose
scheduler-side classification is `Internal` (an
`InternalServerErrorException`), not a distinct `Validation` class; an
unknown session makes it fail `NotFound`. -/
theorem uploadFileCase_guards :
    (∀ (sessions : List (List Char)) (workerId sessionId name : List Char),
        sessions.contains sessionId = true → '/' ∈ name →
        uploadFileCase sessions workerId sessionId name = (.error invalidFilenameMsg, []) ∧
        classifyWorkerError invalidFilenameMsg = .internal) ∧
    (∀ (sessions : List (List Char)) (workerId sessionId name : List Char),
        sessions.contains sessionId = false →
        uploadFileCase sessions workerId sessionId name =
          (.error (sessionNotFoundMsg sessionId workerId), []) ∧
        classifyWorkerError (sessionNotFoundMsg sessionId workerId) = .notFound) := by
  constructor
  · intro sessions workerId sessionId name hmem hslash
    refine ⟨?_, by decide⟩
    simp only [uploadFileCase]
    rw [if_neg (by rw [hmem]; simp), if_pos (slash_mem_basename_ne name hslash)]
  · intro sessions workerId sessionId name hmem
    exact ⟨by simp only [uploadFileCase]; rw [if_pos hmem],
      classify_sessionNotFoundMsg sessionId workerId⟩

/-- Witness for `uploadFileCase_guards`: session `abc` with filename `a/b`
fails with the invalid-filename error classified `Internal`, and the unknown
session `zzz` fails `NotFound`. -/
theorem uploadFileCase_guards_witness :
    (uploadFileCase ["abc".toList] "w0".toList "abc".toList "a/b".toList =
      (.error invalidFilenameMsg, []) ∧
     classifyWorkerError invalidFilenameMsg = .internal) ∧
    (uploadFileCase ["abc".toList] "w0".toList "zzz".toList "data.csv".toList =
      (.error (sessionNotFoundMsg "zzz".toList "w0".toList), []) ∧
     classifyWorkerError (sessionNotFoundMsg "zzz".toList "w0".toList) = .notFound) :=
  ⟨uploadFileCase_guards.1 ["abc".toList] "w0".toList "abc".toList "a/b".toList
      (by decide) (by decide),
   uploadFileCase_guards.2 ["abc".toList] "w0".toList "zzz".toList "data.csv".toList
      (by decide)⟩

/-- Counterexample to `C7`: the invalid-filename failure surfaces as the
scheduler's `Internal` class, not as a `Validation` class. -/
theorem uploadFileCase_validation_cx :
    uploadFileCase ["abc".toList] "w0".toList "abc".toList "a/b".toList =
      (.error invalidFilenameMsg, []) ∧
    classifyWorkerError invalidFilenameMsg = .internal ∧
    ErrKind.internal ≠ ErrKind.validation := by
  decide

/-- Amended claim of `C8`: at the service interface an unknown session id is
classified `NotFound` (the worker message carries `Session with ID`), while
an existing session with a missing file produces the file-not-found message,
which the scheduler classifies as `Internal` (for any requested path not
itself containing the marker text); classification happens scheduler-side by
message content. -/
theorem downloadFile_error_classification (sessions : List (List Char))
    (fsExists : List Char → Bool) (sessionId userPath : List Char)
    (hp : strIncludes userPath sessionMarker = false)
    (hmem : sessions.contains sessionId = false) :
    downloadFileCase sessions fsExists sessionId userPath =
      (.error (sessionNotFoundShortMsg sessionId), []) ∧
    classifyWorkerError (sessionNotFoundShortMsg sessionId) = .notFound ∧
    classifyWorkerError (fileNotFoundMsg userPath) = .internal :=
  ⟨by simp only [downloadFileCase]; rw [if_pos hmem],
   classify_sessionNotFoundShortMsg sessionId,
   classify_fileNotFoundMsg userPath hp⟩

/-- Witness for `downloadFile_error_classification` at session `zzz` and
path `results.csv`. -/
theorem downloadFile_error_classification_witness :
    downloadFileCase ["abc".toList] (fun _ => true) "zzz".toList "results.csv".toList =
      (.error (sessionNotFoundShortMsg "zzz".toList), []) ∧
    classifyWorkerError (sessionNotFoundShortMsg "zzz".toList) = .notFound ∧
    classifyWorkerError (fileNotFoundMsg "results.csv".toList) = .internal :=
  downloadFile_error_classification ["abc".toList] (fun _ => true) "zzz".toList
    "results.csv".toList (by decide) (by decide)

/-- Counterexample to `C8`: a missing file in an existing session is
reported with the file-not-found message, which the scheduler classifies as
`Internal`, not `NotFound`. -/
theorem downloadFile_missing_file_internal_cx :
    downloadFileCase ["abc".toList] (fun _ => false) "abc".toList "results.csv".toList =
      (.error (fileNotFoundMsg "results.csv".toList), []) ∧
    classifyWorkerError (fileNotFoundMsg "results.csv".toList) = .internal ∧
    ErrKind.internal ≠ ErrKind.notFound := by
  decide

/-! ## Worker filesystem lock (`AsyncMutex` in `pyodide.worker.ts`)

The worker wraps the `uploadFile`, `executeCode` and `downloadFile` message
cases — each a mount/chdir/unmount critical section over the process-global
Pyodide filesystem — in `fsLock.lock`.  `AsyncMutex` keeps a promise
`queue`; `lock(fn)` sets `promise := queue.then(fn)` and
`queue := promise.then(() => \x7b\x7d).catch(() => \x7b\x7d)`, so section
`i` is invoked exactly when section `i - 1`'s promise has settled
(fulfilled or rejected — the `catch` resumes the chain after a failure).
The machine below reflects that: `lock` appends a section to the chain;
`invoke` starts the next section once every earlier one has settled;
`work` runs one atomic segment of the current section; `settle` and `fail`
end it.  Sections carry the session id and operation kind but the lock
ignores both, which is what makes the serialization hold across sessions. -/

/-- Operation kinds the worker serializes under `fsLock` (`createSession`
is not locked). -/
inductive FsOp where
  | upload
  | execute
  | download
  deriving DecidableEq, Repr

/-- One critical section handed to `fsLock.lock`. -/
structure LockJob where
  sessionId : List Char
  op : FsOp
  segments : Nat
  deriving DecidableEq, Repr

/-- Ghost trace events: section `j` entered / left its critical section. -/
inductive LockEvent where
  | start (j : Nat)
  | finish (j : Nat)
  deriving DecidableEq, Repr

/-- State of the worker's `fsLock`: the chain of sections in `lock`-call
order, how many have been invoked (`started`) and settled (`settled`), the
remaining segments of the running section, and the ghost event trace. -/
structure MutexState where
  chain : List LockJob
  started : Nat
  settled : Nat
  running : Nat
  trace : List LockEvent
  deriving DecidableEq, Repr

/-- Initial lock state: `queue = Promise.resolve()`, nothing queued. -/
def mutexInit : MutexState := ⟨[], 0, 0, 0, []⟩

/-- Transitions of the lock machine.  `invoke`'s `hpred` is the promise
chaining: section `i`'s `fn` fires exactly when chain link `i - 1` has
settled, which for the source's chain means every earlier section settled. -/
inductive MutexStep : MutexState → MutexState → Prop
  | lock (s : MutexState) (job : LockJob) :
      MutexStep s { s with chain := s.chain ++ [job] }
  | invoke (s : MutexState) (job : LockJob)
      (hpred : s.settled = s.started)
      (hjob : s.chain.get? s.started = some job) :
      MutexStep s { s with started := s.started + 1, running := job.segments,
                           trace := s.trace ++ [.start s.started] }
  | work (s : MutexState) (h : s.started = s.settled + 1) (hr : 0 < s.running) :
      MutexStep s { s with running := s.running - 1 }
  | settle (s : MutexState) (h : s.started = s.settled + 1) (hr : s.running = 0) :
      MutexStep s { s with settled := s.settled + 1,
                           trace := s.trace ++ [.finish s.settled] }
  | fail (s : MutexState) (h : s.started = s.settled + 1) :
      MutexStep s { s with running := 0, settled := s.settled + 1,
                           trace := s.trace ++ [.finish s.settled] }

/-- States reachable from the initial lock state. -/
inductive MutexReachable : MutexState → Prop
  | init : MutexReachable mutexInit
  | step {s t : MutexState} : MutexReachable s → MutexStep s t → MutexReachable t

/-- The only trace shape a FIFO, non-overlapping lock can produce: sections
`0, 1, 2, …` each start and finish before the next starts, with at most the
latest one still open. -/
def canonicalTrace (settled started : Nat) : List LockEvent :=
  (List.range settled).flatMap (fun j => [.start j, .finish j]) ++
  (if started = settled + 1 then [.start settled] else [])

/-- The claim of `C9`: in every reachable state of the worker's `fsLock`,
at most one critical section has started and not finished
(`started ≤ settled + 1`, so sections never overlap), and the trace is the
canonical strictly-FIFO interleaving — sections run in exactly the order
`lock` was called, whatever session each section belongs to. -/
theorem fsLock_serializes (s : MutexState) (h : MutexReachable s) :
    s.trace = canonicalTrace s.settled s.started ∧
    s.started ≤ s.settled + 1 ∧ s.settled ≤ s.started ∧
    s.started ≤ s.chain.length := by
  induction h with
  | init => exact ⟨rfl, by decide, by decide, by decide⟩
  | @step s t hr hstep ih =>
      obtain ⟨htr, hle, hge, hlen⟩ := ih
      cases hstep with
      | lock job =>
          refine ⟨htr, hle, hge, ?_⟩
          dsimp only
          simp only [List.length_append, List.length_cons, List.length_nil]
          omega
      | invoke job hpred hjob =>
          have hlt : s.started < s.chain.length := (List.get?_eq_some.mp hjob).1
          refine ⟨?_, by dsimp only; omega, by dsimp only; omega, by dsimp only; omega⟩
          show s.trace ++ [.start s.started] = canonicalTrace s.settled (s.started + 1)
          rw [htr, hpred]
          simp [canonicalTrace, Nat.self_eq_add_right]
      | work hse hrun => exact ⟨htr, hle, hge, hlen⟩
      | settle hse hrun =>
          refine ⟨?_, by dsimp only; omega, by dsimp only; omega, by dsimp only; omega⟩
          show s.trace ++ [.finish s.settled] = canonicalTrace (s.settled + 1) s.started
          rw [htr, hse]
          simp [canonicalTrace, List.range_succ, Nat.self_eq_add_right]
      | fail hse =>
          refine ⟨?_, by dsimp only; omega, by dsimp only; omega, by dsimp only; omega⟩
          show s.trace ++ [.finish s.settled] = canonicalTrace (s.settled + 1) s.started
          rw [htr, hse]
          simp [canonicalTrace, List.range_succ, Nat.self_eq_add_right]

/-- Witness for `fsLock_serializes`: two sections from different sessions;
the first has started and finished, the second has started, and the trace
is the canonical FIFO interleaving. -/
theorem fsLock_serializes_witness :
    (⟨[⟨"a".toList, .upload, 0⟩, ⟨"b".toList, .download, 3⟩], 2, 1, 3,
      [.start 0, .finish 0, .start 1]⟩ : MutexState).trace =
      canonicalTrace 1 2 ∧ (2 : Nat) ≤ 1 + 1 := by
  have h0 : MutexReachable mutexInit := .init
  have h1 := MutexReachable.step h0 (MutexStep.lock mutexInit ⟨"a".toList, .upload, 0⟩)
  have h2 := MutexReachable.step h1 (MutexStep.lock _ ⟨"b".toList, .download, 3⟩)
  have h3 := MutexReachable.step h2 (MutexStep.invoke _ ⟨"a".toList, .upload, 0⟩ rfl rfl)
  have h4 := MutexReachable.step h3 (MutexStep.settle _ rfl rfl)
  have h5 := MutexReachable.step h4 (MutexStep.invoke _ ⟨"b".toList, .download, 3⟩ rfl rfl)
  have := fsLock_serializes _ h5
  exact ⟨this.1, this.2.1⟩

/-- JavaScript `Array.prototype.findIndex`, as an `Option Nat`. -/
def findIndex {α : Type} (p : α → Bool) : List α → Option Nat
  | [] => none
  | a :: as => if p a then some 0 else (findIndex p as).map (· + 1)

theorem findIndex_eq_none {α : Type} (p : α → Bool) (l : List α) :
    findIndex p l = none ↔ ∀ x ∈ l, p x = false := by
  induction l with
  | nil => simp [findIndex]
  | cons a as ih =>
      by_cases hp : p a = true
      · simp [findIndex, hp]
      · constructor
        · intro h x hx
          rcases List.mem_cons.mp hx with he | hm
          · subst he
            exact Bool.eq_false_iff.mpr hp
          · have hnone : findIndex p as = none := by
              unfold findIndex at h
              rw [if_neg hp] at h
              cases hfi : findIndex p as with
              | none => rfl
              | some j => rw [hfi] at h; cases h
            exact ih.mp hnone x hm
        · intro h
          unfold findIndex
          rw [if_neg hp]
          rw [ih.mpr (fun x hx => h x (List.mem_cons_of_mem a hx))]
          rfl

theorem findIndex_eq_some {α : Type} (p : α → Bool) (l : List α) (k : Nat) :
    findIndex p l = some k ↔
      (∃ w, l.get? k = some w ∧ p w = true) ∧
      (∀ j, j < k → ∀ u, l.get? j = some u → p u = false) := by
  induction l generalizing k with
  | nil => simp [findIndex]
  | cons a as ih =>
      by_cases hp : p a = true
      · simp only [findIndex, if_pos hp]
        constructor
        · intro h
          cases h
          exact ⟨⟨a, rfl, hp⟩, fun j hj u hu => absurd hj (by omega)⟩
        · rintro ⟨⟨w, hw, hpw⟩, hmin⟩
          cases k with
          | zero => rfl
          | succ k =>
              have := hmin 0 (by omega) a rfl
              rw [hp] at this
              cases this
      · simp only [findIndex, if_neg hp]
        constructor
        · intro h
          cases hfi : findIndex p as with
          | none => rw [hfi] at h; cases h
          | some j =>
              rw [hfi] at h
              simp only [Option.map] at h
              cases h
              obtain ⟨hex, hmin⟩ := (ih j).mp hfi
              refine ⟨hex, ?_⟩
              intro i hilt u hu
              cases i with
              | zero =>
                  simp only [List.get?] at hu
                  cases hu
                  exact Bool.eq_false_iff.mpr hp
              | succ i => exact hmin i (by omega) u hu
        · rintro ⟨⟨w, hw, hpw⟩, hmin⟩
          cases k with
          | zero =>
              simp only [List.get?] at hw
              cases hw
              rw [hpw] at hp
              cases hp rfl
          | succ k =>
              rw [(ih k).mpr ⟨⟨w, hw, hpw⟩,
                fun j hjlt u hu => hmin (j + 1) (by omega) u hu⟩]
              rfl

/-! ## Scheduler state machine (`PyodideSessionService`)

The scheduler runs single-threaded; every mutation of its slot table happens
inside one of the Node event-loop reaction points: `sendTaskToWorker`, the
worker `message` / `error` / `exit` handlers, and the `setTimeout` callback.
Each reaction point becomes one event of the machine below.  `uuidv4` values
(task ids and worker ids) and `Worker` object references are modelled as
numbers drawn from a fresh counter, which encodes that UUIDs never repeat.
`readyIds`, `usedWorkerIds`, `enqueuedLog` and `dispatchLog` are ghost
fields recording history; `outcomes` records each caller promise's first
settlement (a promise settles only once).  The `startTime` field of an
active task is dropped: timeouts are modelled as events, not clock reads. -/

/-- Entry of the scheduler's `workers` array: the worker's UUID and the
`Worker` object reference (`none` once nulled by `replaceWorker`). -/
structure WorkerInstance where
  id : Nat
  inst : Option Nat
  deriving DecidableEq, Repr

/-- First settlement of a caller's (outer) promise.  The two crash shapes
mirror the two `InternalServerErrorException` messages of `replaceWorker`;
`invalidWorkerIndex` mirrors the out-of-range rejection of
`sendTaskToWorker`. -/
inductive Outcome where
  | resolved
  | notFound (msg : List Char)
  | internal (msg : List Char)
  | workerCrashed (workerId : Nat)
  | crashedBeforeDispatch (slot : Nat)
  | timeout
  | invalidWorkerIndex
  deriving DecidableEq, Repr

/-- The `WorkerCrash` class of the spec's taxonomy: rejections issued by
`replaceWorker`. -/
def Outcome.isWorkerCrashClass : Outcome → Bool
  | .workerCrashed _ => true
  | .crashedBeforeDispatch _ => true
  | _ => false

/-- Scheduler state (`workers`, `taskQueues`, `activeTasks` of the service,
a fresh-UUID counter, and ghost history). -/
structure SchedState where
  workers : List WorkerInstance
  taskQueues : List (List Nat)
  activeTasks : List (Nat × Nat)
  outcomes : List (Nat × Outcome)
  nextId : Nat
  readyIds : List Nat
  usedWorkerIds : List Nat
  enqueuedLog : List (List Nat)
  dispatchLog : List (List Nat)
  deriving DecidableEq, Repr

/-- JavaScript array assignment `a[k] = v` for the indices this code uses
(`k < a.length`, or `k = a.length` during startup). -/
def setOrPush {α : Type} (l : List α) (k : Nat) (a : α) : List α :=
  if k < l.length then l.set k a else l ++ [a]

/-- Promise settlement: a promise resolves or rejects only once, so a later
settlement of the same task id is dropped. -/
def settleOutcome (outs : List (Nat × Outcome)) (tid : Nat) (o : Outcome) :
    List (Nat × Outcome) :=
  if (outs.find? (fun p => p.1 == tid)).isSome then outs else outs ++ [(tid, o)]

/-- Settle a list of rejections in issue order. -/
def settleAll (outs : List (Nat × Outcome)) (rejs : List (Nat × Outcome)) :
    List (Nat × Outcome) :=
  rejs.foldl (fun acc r => settleOutcome acc r.1 r.2) outs

/-- The recorded settlement of a task's caller promise, if any. -/
def outcomeOf (s : SchedState) (tid : Nat) : Option Outcome :=
  (s.outcomes.find? (fun p => p.1 == tid)).map Prod.snd

/-- Embeds the `isWorkerBusy` check of `processQueueForWorker`: some active
task is owned by this worker id. -/
def isWorkerBusy (s : SchedState) (wid : Nat) : Bool :=
  s.activeTasks.any (fun t => t.2 == wid)

/-- Embeds `processQueueForWorker`: no-op unless the slot exists with a
non-null `Worker` object, the queue is non-empty and the worker is not
busy; otherwise the queue head moves to `activeTasks` owned by the current
worker id and is posted to the worker (ghost `dispatchLog`). -/
def processQueueForWorker (s : SchedState) (k : Nat) : SchedState :=
  match s.workers.get? k with
  | none => s
  | some w =>
      match w.inst with
      | none => s
      | some _ =>
          if (s.taskQueues.getD k []).isEmpty || isWorkerBusy s w.id then s
          else
            match s.taskQueues.getD k [] with
            | [] => s
            | t :: rest =>
                { s with taskQueues := s.taskQueues.set k rest,
                         activeTasks := s.activeTasks ++ [(t, w.id)],
                         dispatchLog := s.dispatchLog.set k
                           ((s.dispatchLog.getD k []) ++ [t]) }

/-- Embeds `spawnWorker`: a fresh UUID and a fresh `Worker` object bound to
slot `k`.  A fresh worker has not posted `ready` yet (it is absent from the
ghost `readyIds`). -/
def spawnWorker (s : SchedState) (k : Nat) : SchedState :=
  { s with workers := setOrPush s.workers k ⟨s.nextId, some s.nextId⟩,
           nextId := s.nextId + 1,
           usedWorkerIds := s.usedWorkerIds ++ [s.nextId] }

/-- Embeds `replaceWorker`: look the slot up by `Worker` object identity
(`-1` means already replaced: no-op), null the slot's instance, reject every
active task owned by the crashed worker's UUID and remove it, reject and
clear the slot's queue, and spawn a replacement.  Returns the rejections in
issue order; the calling event settles them. -/
def replaceWorker (s : SchedState) (crashedRef : Nat) :
    SchedState × List (Nat × Outcome) :=
  match findIndex (fun w => w.inst == some crashedRef) s.workers with
  | none => (s, [])
  | some k =>
      let crashedId := ((s.workers.get? k).map WorkerInstance.id).getD 0
      let rejsActive := (s.activeTasks.filter (fun t => t.2 == crashedId)).map
        (fun t => (t.1, Outcome.workerCrashed crashedId))
      let rejsQueued := (s.taskQueues.getD k []).map
        (fun t => (t, Outcome.crashedBeforeDispatch k))
      let s1 : SchedState :=
        { s with workers := s.workers.set k ⟨crashedId, none⟩,
                 activeTasks := s.activeTasks.filter (fun t => t.2 != crashedId),
                 taskQueues := s.taskQueues.set k [] }
      (spawnWorker s1 k, rejsActive ++ rejsQueued)

/-- Embeds the scheduler part of `sendTaskToWorker` for a task routed to
slot `k` (the slot is `getWorkerIndexForSession` of the session id): draw a
fresh task id, reject immediately if the slot is out of range, otherwise
enqueue and attempt a dispatch. -/
def sendEvent (s : SchedState) (k : Nat) : SchedState :=
  let tid := s.nextId
  let s0 : SchedState := { s with nextId := s.nextId + 1 }
  if s0.workers.length ≤ k then
    { s0 with outcomes := settleOutcome s0.outcomes tid .invalidWorkerIndex }
  else
    processQueueForWorker
      { s0 with taskQueues := s0.taskQueues.set k ((s0.taskQueues.getD k []) ++ [tid]),
                enqueuedLog := s0.enqueuedLog.set k ((s0.enqueuedLog.getD k []) ++ [tid]) }
      k

/-- Embeds the `ready` branch of the worker `message` handler (the closure
captured the slot index `k` and the worker UUID `wid`): record readiness and
attempt a dispatch. -/
def readyEvent (s : SchedState) (k : Nat) (wid : Nat) : SchedState :=
  processQueueForWorker { s with readyIds := s.readyIds ++ [wid] } k

/-- Embeds the non-`ready` branch of the worker `message` handler: look the
task up by id — a stale or unknown id falls through silently — otherwise
resolve, or classify the error message and reject, remove the task, and
attempt the next dispatch for the closure's slot. -/
def taskMsgEvent (s : SchedState) (k : Nat) (tid : Nat) (err : Option (List Char)) :
    SchedState :=
  match s.activeTasks.find? (fun p => p.1 == tid) with
  | none => s
  | some _ =>
      let o : Outcome := match err with
        | none => .resolved
        | some msg =>
            if strIncludes msg sessionMarker then .notFound msg else .internal msg
      processQueueForWorker
        { s with outcomes := settleOutcome s.outcomes tid o,
                 activeTasks := s.activeTasks.filter (fun p => p.1 != tid) } k

/-- Embeds the worker `error` handler and the non-zero `exit` handler:
replace the worker identified by its object reference and settle every
rejection `replaceWorker` issued. -/
def crashEvent (s : SchedState) (crashedRef : Nat) : SchedState :=
  let r := replaceWorker s crashedRef
  { r.1 with outcomes := settleAll r.1.outcomes r.2 }

/-- Embeds the `setTimeout` callback of `sendTaskToWorker`.  If the task is
still active, the stuck worker's slot is found by UUID, the slot is replaced
when it still holds a live instance, the task is removed, and the caller is
rejected with the `RequestTimeoutException`.  That `reject` runs
synchronously inside the callback and settles the caller's outer promise
first; the rejections issued inside `replaceWorker` reach the outer promises
only through deferred `.catch` propagation, so they are settled after it. -/
def timeoutEvent (s : SchedState) (tid : Nat) : SchedState :=
  match s.activeTasks.find? (fun p => p.1 == tid) with
  | none => { s with outcomes := settleOutcome s.outcomes tid .timeout }
  | some p =>
      match findIndex (fun w => w.id == p.2) s.workers with
      | none =>
          { s with activeTasks := s.activeTasks.filter (fun q => q.1 != tid),
                   outcomes := settleOutcome s.outcomes tid .timeout }
      | some j =>
          match (s.workers.get? j).bind WorkerInstance.inst with
          | none =>
              { s with activeTasks := s.activeTasks.filter (fun q => q.1 != tid),
                       outcomes := settleOutcome s.outcomes tid .timeout }
          | some ref =>
              let r := replaceWorker s ref
              let s2 : SchedState :=
                { r.1 with activeTasks := r.1.activeTasks.filter (fun q => q.1 != tid) }
              { s2 with outcomes := settleAll (settleOutcome s2.outcomes tid .timeout) r.2 }

/-- The empty service state before `onModuleInit`. -/
def emptySched : SchedState := ⟨[], [], [], [], 0, [], [], [], []⟩

/-- One iteration of the `onModuleInit` loop: `taskQueues[i] = []` (ghost
logs alongside) and `spawnWorker(i)`. -/
def initSlot (s : SchedState) (i : Nat) : SchedState :=
  spawnWorker
    { s with taskQueues := setOrPush s.taskQueues i [],
             enqueuedLog := setOrPush s.enqueuedLog i [],
             dispatchLog := setOrPush s.dispatchLog i [] } i

/-- Embeds `onModuleInit` for a pool of `n` workers. -/
def initState (n : Nat) : SchedState := (List.range n).foldl initSlot emptySched

/-- Scheduler events, one per event-loop reaction point.  `exitZero` is
absent because a zero exit code leaves the state untouched.  The timeout
event requires `tid < s.nextId`: a timer only exists for a task id that
`sendTaskToWorker` has already drawn. -/
inductive SchedStep : SchedState → SchedState → Prop
  | send (s : SchedState) (k : Nat) : SchedStep s (sendEvent s k)
  | ready (s : SchedState) (k wid : Nat) : SchedStep s (readyEvent s k wid)
  | taskMsg (s : SchedState) (k tid : Nat) (err : Option (List Char)) :
      SchedStep s (taskMsgEvent s k tid err)
  | crash (s : SchedState) (ref : Nat) : SchedStep s (crashEvent s ref)
  | exitNonZero (s : SchedState) (ref : Nat) (code : Nat) (h : code ≠ 0) :
      SchedStep s (crashEvent s ref)
  | timeout (s : SchedState) (tid : Nat) (h : tid < s.nextId) :
      SchedStep s (timeoutEvent s tid)

/-- States reachable from `onModuleInit` with pool size `n`. -/
inductive SchedReachable (n : Nat) : SchedState → Prop
  | init : SchedReachable n (initState n)
  | step {s t : SchedState} : SchedReachable n s → SchedStep s t → SchedReachable n t

/-- The spec's `Ready` status for slot `k`: the slot holds a live worker
that has posted its `ready` message. -/
def slotReady (s : SchedState) (k : Nat) : Bool :=
  match s.workers.get? k with
  | some w => w.inst.isSome && s.readyIds.contains w.id
  | none => false

/-! ### List index helpers -/

theorem get?_set_self {α : Type} (l : List α) (k : Nat) (a : α) (h : k < l.length) :
    (l.set k a).get? k = some a := by
  induction l generalizing k with
  | nil => simp at h
  | cons x xs ih =>
      cases k with
      | zero => rfl
      | succ k => exact ih k (by simpa using h)

theorem get?_set_ne {α : Type} (l : List α) (k j : Nat) (a : α) (h : k ≠ j) :
    (l.set k a).get? j = l.get? j := by
  induction l generalizing k j with
  | nil => simp
  | cons x xs ih =>
      cases k with
      | zero => cases j with
          | zero => exact absurd rfl h
          | succ j => rfl
      | succ k => cases j with
          | zero => rfl
          | succ j => exact ih k j (by omega)

theorem getD_set_self {α : Type} (l : List α) (k : Nat) (a d : α) (h : k < l.length) :
    (l.set k a).getD k d = a := by
  induction l generalizing k with
  | nil => simp at h
  | cons x xs ih =>
      cases k with
      | zero => rfl
      | succ k => exact ih k (by simpa using h)

theorem getD_set_ne {α : Type} (l : List α) (k j : Nat) (a d : α) (h : k ≠ j) :
    (l.set k a).getD j d = l.getD j d := by
  induction l generalizing k j with
  | nil => simp
  | cons x xs ih =>
      cases k with
      | zero => cases j with
          | zero => exact absurd rfl h
          | succ j => rfl
      | succ k => cases j with
          | zero => rfl
          | succ j => exact ih k j (by omega)

/-! ### Scheduler invariant -/

/-- Wellformedness of a scheduler state, preserved by every event:
aligned table lengths; freshness of every id against the UUID counter;
uniqueness of live `Worker` references; at most one in-flight task per
worker id; a task sits in at most one place; settled promises never belong
to live tasks; per-slot enqueue order is the id order and the dispatch
order together with the residual queue embeds into it. -/
structure SchedInv (s : SchedState) : Prop where
  lenQ : s.taskQueues.length = s.workers.length
  lenE : s.enqueuedLog.length = s.workers.length
  lenD : s.dispatchLog.length = s.workers.length
  widFresh : ∀ i w, s.workers.get? i = some w → w.id < s.nextId
  refFresh : ∀ i w r, s.workers.get? i = some w → w.inst = some r → r < s.nextId
  refDistinct : ∀ i j wi wj r, i ≠ j → s.workers.get? i = some wi →
    s.workers.get? j = some wj → wi.inst = some r → wj.inst ≠ some r
  widDistinct : ∀ i j wi wj, i ≠ j → s.workers.get? i = some wi →
    s.workers.get? j = some wj → wi.id ≠ wj.id
  usedFresh : ∀ u ∈ s.usedWorkerIds, u < s.nextId
  widUsed : ∀ i w, s.workers.get? i = some w → w.id ∈ s.usedWorkerIds
  activeFresh : ∀ p ∈ s.activeTasks, p.1 < s.nextId
  activeOwners : s.activeTasks.Pairwise (fun a b => a.2 ≠ b.2)
  activeKeys : s.activeTasks.Pairwise (fun a b => a.1 ≠ b.1)
  activeQueue : ∀ p ∈ s.activeTasks, ∀ k, p.1 ∉ s.taskQueues.getD k []
  queueFresh : ∀ k, ∀ t ∈ s.taskQueues.getD k [], t < s.nextId
  queuesNodup : ∀ k, (s.taskQueues.getD k []).Nodup
  queueCross : ∀ k j, k ≠ j → ∀ t ∈ s.taskQueues.getD k [], t ∉ s.taskQueues.getD j []
  outcomesFresh : ∀ q ∈ s.outcomes, q.1 < s.nextId
  activeOwnerLive : ∀ p ∈ s.activeTasks, ∃ j w, s.workers.get? j = some w ∧
    w.id = p.2 ∧ w.inst.isSome = true
  enqFresh : ∀ k, ∀ t ∈ s.enqueuedLog.getD k [], t < s.nextId
  enqSorted : ∀ k, List.Sorted (· < ·) (s.enqueuedLog.getD k [])
  dispSub : ∀ k, ((s.dispatchLog.getD k []) ++ (s.taskQueues.getD k [])).Sublist
    (s.enqueuedLog.getD k [])

/-- `processQueueForWorker` either leaves the state unchanged or moves the
head of a non-empty queue of a live, non-busy slot into `activeTasks`. -/
theorem processQueue_cases (s : SchedState) (k : Nat) :
    processQueueForWorker s k = s ∨
    ∃ w t rest, s.workers.get? k = some w ∧ w.inst.isSome = true ∧
      s.taskQueues.getD k [] = t :: rest ∧ isWorkerBusy s w.id = false ∧
      processQueueForWorker s k =
        { s with taskQueues := s.taskQueues.set k rest,
                 activeTasks := s.activeTasks ++ [(t, w.id)],
                 dispatchLog := s.dispatchLog.set k
                   ((s.dispatchLog.getD k []) ++ [t]) } := by
  unfold processQueueForWorker
  cases hgw : s.workers.get? k with
  | none => exact Or.inl rfl
  | some w =>
      dsimp only
      cases hinst : w.inst with
      | none => exact Or.inl rfl
      | some r =>
          dsimp only
          by_cases hcond : ((s.taskQueues.getD k []).isEmpty || isWorkerBusy s w.id) = true
          · rw [if_pos hcond]
            exact Or.inl rfl
          · rw [if_neg hcond]
            rw [Bool.or_eq_true, not_or] at hcond
            obtain ⟨hne, hbusy⟩ := hcond
            cases hq : s.taskQueues.getD k [] with
            | nil => rw [hq] at hne; simp at hne
            | cons t rest =>
                exact Or.inr ⟨w, t, rest, rfl, by simp [hinst], rfl,
                  Bool.of_not_eq_true hbusy, rfl⟩

theorem processQueue_inv {s : SchedState} (hs : SchedInv s) (k : Nat) :
    SchedInv (processQueueForWorker s k) := by
  rcases processQueue_cases s k with heq | ⟨w, t, rest, hgw, hinst, hq, hbusy, heq⟩
  · rw [heq]; exact hs
  · rw [heq]
    have hklenQ : k < s.taskQueues.length := by
      by_contra hge
      rw [List.getD_eq_default _ _ (by omega)] at hq
      cases hq
    have hklenW : k < s.workers.length := by rw [← hs.lenQ]; exact hklenQ
    have hklenD : k < s.dispatchLog.length := by rw [hs.lenD]; exact hklenW
    have hbusyF : ∀ p ∈ s.activeTasks, p.2 ≠ w.id := by
      intro p hp
      have := (List.any_eq_false.mp hbusy) p hp
      simpa using this
    have htmem : t ∈ s.taskQueues.getD k [] := by rw [hq]; exact List.mem_cons_self _ _
    have hrest : ∀ u ∈ rest, u ∈ s.taskQueues.getD k [] := by
      intro u hu; rw [hq]; exact List.mem_cons_of_mem _ hu
    have hqsub : ∀ j u, u ∈ (s.taskQueues.set k rest).getD j [] →
        u ∈ s.taskQueues.getD j [] := by
      intro j u hu
      by_cases hjk : k = j
      · subst hjk
        rw [getD_set_self _ _ _ _ hklenQ] at hu
        exact hrest u hu
      · rwa [getD_set_ne _ _ _ _ _ hjk] at hu
    have htnotrest : t ∉ rest := by
      have := hs.queuesNodup k
      rw [hq] at this
      exact (List.nodup_cons.mp this).1
    refine ⟨?_, ?_, ?_, ?_, ?_, ?_, ?_, ?_, ?_, ?_, ?_, ?_, ?_, ?_, ?_, ?_, ?_, ?_, ?_, ?_, ?_⟩
    · simpa using hs.lenQ
    · exact hs.lenE
    · simpa using hs.lenD
    · exact hs.widFresh
    · exact hs.refFresh
    · exact hs.refDistinct
    · exact hs.widDistinct
    · exact hs.usedFresh
    · exact hs.widUsed
    · intro p hp
      rcases List.mem_append.mp hp with hold | hnew
      · exact hs.activeFresh p hold
      · rw [List.mem_singleton.mp hnew]
        exact hs.queueFresh k t htmem
    · refine List.pairwise_append.mpr ⟨hs.activeOwners, List.pairwise_singleton _ _, ?_⟩
      intro a ha b hb
      rw [List.mem_singleton.mp hb]
      exact hbusyF a ha
    · refine List.pairwise_append.mpr ⟨hs.activeKeys, List.pairwise_singleton _ _, ?_⟩
      intro a ha b hb
      rw [List.mem_singleton.mp hb]
      intro hkey
      exact hs.activeQueue a ha k (hkey ▸ htmem)
    · intro p hp j
      rcases List.mem_append.mp hp with hold | hnew
      · intro hmem
        exact hs.activeQueue p hold j (hqsub j p.1 hmem)
      · rw [List.mem_singleton.mp hnew]
        by_cases hjk : k = j
        · subst hjk
          rw [getD_set_self _ _ _ _ hklenQ]
          exact htnotrest
        · rw [getD_set_ne _ _ _ _ _ hjk]
          exact hs.queueCross k j hjk t htmem
    · intro j u hu
      exact hs.queueFresh j u (hqsub j u hu)
    · intro j
      by_cases hjk : k = j
      · subst hjk
        rw [getD_set_self _ _ _ _ hklenQ]
        have := hs.queuesNodup k
        rw [hq] at this
        exact (List.nodup_cons.mp this).2
      · rw [getD_set_ne _ _ _ _ _ hjk]
        exact hs.queuesNodup j
    · intro j1 j2 hj u hu hmem
      exact hs.queueCross j1 j2 hj u (hqsub j1 u hu) (hqsub j2 u hmem)
    · exact hs.outcomesFresh
    · intro p hp
      rcases List.mem_append.mp hp with hold | hnew
      · exact hs.activeOwnerLive p hold
      · rw [List.mem_singleton.mp hnew]
        exact ⟨k, w, hgw, rfl, hinst⟩
    · exact hs.enqFresh
    · exact hs.enqSorted
    · intro j
      by_cases hjk : k = j
      · subst hjk
        rw [getD_set_self _ _ _ _ hklenQ, getD_set_self _ _ _ _ hklenD]
        have : ((s.dispatchLog.getD k []) ++ [t]) ++ rest =
            (s.dispatchLog.getD k []) ++ (t :: rest) := by simp
        rw [this, ← hq]
        exact hs.dispSub k
      · rw [getD_set_ne _ _ _ _ _ hjk, getD_set_ne _ _ _ _ _ hjk]
        exact hs.dispSub j

theorem spawn_inv {s : SchedState} (hs : SchedInv s) (k : Nat)
    (hk : k < s.workers.length)
    (hk0 : ∀ w, s.workers.get? k = some w → w.inst = none ∧
      ∀ p ∈ s.activeTasks, p.2 ≠ w.id) : SchedInv (spawnWorker s k) := by
  unfold spawnWorker setOrPush
  rw [if_pos hk]
  refine ⟨?_, ?_, ?_, ?_, ?_, ?_, ?_, ?_, ?_, ?_, ?_, ?_, ?_, ?_, ?_, ?_, ?_, ?_, ?_, ?_, ?_⟩
  · simpa using hs.lenQ
  · simpa using hs.lenE
  · simpa using hs.lenD
  · intro i w hw
    by_cases hik : k = i
    · subst hik
      rw [get?_set_self _ _ _ hk] at hw
      cases hw
      dsimp only
      omega
    · rw [get?_set_ne _ _ _ _ hik] at hw
      exact Nat.lt_succ_of_lt (hs.widFresh i w hw)
  · intro i w r hw hr
    by_cases hik : k = i
    · subst hik
      rw [get?_set_self _ _ _ hk] at hw
      cases hw
      cases hr
      dsimp only
      omega
    · rw [get?_set_ne _ _ _ _ hik] at hw
      exact Nat.lt_succ_of_lt (hs.refFresh i w r hw hr)
  · intro i j wi wj r hij hwi hwj hri
    by_cases hik : k = i
    · subst hik
      rw [get?_set_self _ _ _ hk] at hwi
      cases hwi
      cases hri
      rw [get?_set_ne _ _ _ _ (by omega)] at hwj
      intro hrj
      exact absurd (hs.refFresh j wj _ hwj hrj) (by omega)
    · rw [get?_set_ne _ _ _ _ hik] at hwi
      by_cases hjk : k = j
      · subst hjk
        rw [get?_set_self _ _ _ hk] at hwj
        cases hwj
        have := hs.refFresh i wi r hwi hri
        simp only [WorkerInstance.inst]
        intro hrj
        cases hrj
        omega
      · rw [get?_set_ne _ _ _ _ hjk] at hwj
        exact hs.refDistinct i j wi wj r hij hwi hwj hri
  · intro i j wi wj hij hwi hwj
    by_cases hik : k = i
    · subst hik
      rw [get?_set_self _ _ _ hk] at hwi
      cases hwi
      rw [get?_set_ne _ _ _ _ (by omega)] at hwj
      have := hs.widFresh j wj hwj
      dsimp only
      omega
    · rw [get?_set_ne _ _ _ _ hik] at hwi
      by_cases hjk : k = j
      · subst hjk
        rw [get?_set_self _ _ _ hk] at hwj
        cases hwj
        have := hs.widFresh i wi hwi
        dsimp only
        omega
      · rw [get?_set_ne _ _ _ _ hjk] at hwj
        exact hs.widDistinct i j wi wj hij hwi hwj
  · intro u hu
    rcases List.mem_append.mp hu with hold | hnew
    · exact Nat.lt_succ_of_lt (hs.usedFresh u hold)
    · rw [List.mem_singleton.mp hnew]
      dsimp only
      omega
  · intro i w hw
    by_cases hik : k = i
    · subst hik
      rw [get?_set_self _ _ _ hk] at hw
      cases hw
      exact List.mem_append_right _ (List.mem_singleton_self _)
    · rw [get?_set_ne _ _ _ _ hik] at hw
      exact List.mem_append_left _ (hs.widUsed i w hw)
  · exact fun p hp => Nat.lt_succ_of_lt (hs.activeFresh p hp)
  · exact hs.activeOwners
  · exact hs.activeKeys
  · exact hs.activeQueue
  · exact fun k t ht => Nat.lt_succ_of_lt (hs.queueFresh k t ht)
  · exact hs.queuesNodup
  · exact hs.queueCross
  · exact fun q hq => Nat.lt_succ_of_lt (hs.outcomesFresh q hq)
  · intro p hp
    obtain ⟨j, wj, hwj, hid, hinst⟩ := hs.activeOwnerLive p hp
    by_cases hjk : k = j
    · subst hjk
      obtain ⟨hnone, _⟩ := hk0 wj hwj
      rw [hnone] at hinst
      cases hinst
    · exact ⟨j, wj, by rw [get?_set_ne _ _ _ _ hjk]; exact hwj, hid, hinst⟩
  · exact fun k t ht => Nat.lt_succ_of_lt (hs.enqFresh k t ht)
  · exact hs.enqSorted
  · exact hs.dispSub

theorem replace_found {s : SchedState} (hs : SchedInv s) (k : Nat)
    (w : WorkerInstance) (r : Nat) (hw : s.workers.get? k = some w)
    (hr : w.inst = some r) :
    findIndex (fun x => x.inst == some r) s.workers = some k := by
  rw [findIndex_eq_some]
  refine ⟨⟨w, hw, by simp [hr]⟩, ?_⟩
  intro j hj u hu
  have hne : u.inst ≠ some r := by
    intro heq
    exact hs.refDistinct j k u w r (by omega) hu hw heq hr
  simp [hne]

theorem replaceWorker_spec {s : SchedState} (hs : SchedInv s) (k : Nat)
    (w : WorkerInstance) (r : Nat) (hw : s.workers.get? k = some w)
    (hr : w.inst = some r) :
    replaceWorker s r =
      (spawnWorker
        { s with workers := s.workers.set k ⟨w.id, none⟩,
                 activeTasks := s.activeTasks.filter (fun t => t.2 != w.id),
                 taskQueues := s.taskQueues.set k [] } k,
       (s.activeTasks.filter (fun t => t.2 == w.id)).map
          (fun t => (t.1, Outcome.workerCrashed w.id)) ++
       (s.taskQueues.getD k []).map (fun t => (t, Outcome.crashedBeforeDispatch k))) := by
  unfold replaceWorker
  rw [replace_found hs k w r hw hr]
  dsimp only
  rw [hw]
  rfl

theorem refDistinct_symm {s : SchedState} (hs : SchedInv s) :
    ∀ i j wi wj r, i ≠ j → s.workers.get? i = some wi → s.workers.get? j = some wj →
      wi.inst = some r → wj.inst = some r → False := by
  intro i j wi wj r hij hwi hwj hri hrj
  exact hs.refDistinct i j wi wj r hij hwi hwj hri hrj

theorem replace_mid_inv {s : SchedState} (hs : SchedInv s) (k : Nat)
    (w : WorkerInstance) (hw : s.workers.get? k = some w) :
    SchedInv { s with workers := s.workers.set k ⟨w.id, none⟩,
                      activeTasks := s.activeTasks.filter (fun t => t.2 != w.id),
                      taskQueues := s.taskQueues.set k [] } := by
  have hk : k < s.workers.length := by
    by_contra hge
    rw [List.get?_eq_none.mpr (by omega)] at hw
    cases hw
  have hqsub : ∀ j u, u ∈ (s.taskQueues.set k []).getD j [] →
      u ∈ s.taskQueues.getD j [] := by
    intro j u hu
    by_cases hjk : k = j
    · subst hjk
      by_cases hlen : k < s.taskQueues.length
      · rw [getD_set_self _ _ _ _ hlen] at hu
        cases hu
      · rw [List.set_eq_of_length_le (by omega)] at hu
        exact hu
    · rwa [getD_set_ne _ _ _ _ _ hjk] at hu
  refine ⟨?_, ?_, ?_, ?_, ?_, ?_, ?_, ?_, ?_, ?_, ?_, ?_, ?_, ?_, ?_, ?_, ?_, ?_, ?_, ?_, ?_⟩
  · simpa using hs.lenQ
  · simpa using hs.lenE
  · simpa using hs.lenD
  · intro i wi hwi
    by_cases hik : k = i
    · subst hik
      rw [get?_set_self _ _ _ hk] at hwi
      cases hwi
      exact hs.widFresh k w hw
    · rw [get?_set_ne _ _ _ _ hik] at hwi
      exact hs.widFresh i wi hwi
  · intro i wi r hwi hr
    by_cases hik : k = i
    · subst hik
      rw [get?_set_self _ _ _ hk] at hwi
      cases hwi
      cases hr
    · rw [get?_set_ne _ _ _ _ hik] at hwi
      exact hs.refFresh i wi r hwi hr
  · intro i j wi wj r hij hwi hwj hri
    by_cases hik : k = i
    · subst hik
      rw [get?_set_self _ _ _ hk] at hwi
      cases hwi
      cases hri
    · rw [get?_set_ne _ _ _ _ hik] at hwi
      by_cases hjk : k = j
      · subst hjk
        rw [get?_set_self _ _ _ hk] at hwj
        cases hwj
        intro hrj
        cases hrj
      · rw [get?_set_ne _ _ _ _ hjk] at hwj
        exact hs.refDistinct i j wi wj r hij hwi hwj hri
  · intro i j wi wj hij hwi hwj
    by_cases hik : k = i
    · subst hik
      rw [get?_set_self _ _ _ hk] at hwi
      cases hwi
      rw [get?_set_ne _ _ _ _ (fun he => hij he)] at hwj
      exact hs.widDistinct k j w wj hij hw hwj
    · rw [get?_set_ne _ _ _ _ hik] at hwi
      by_cases hjk : k = j
      · subst hjk
        rw [get?_set_self _ _ _ hk] at hwj
        cases hwj
        exact hs.widDistinct i k wi w hij hwi hw
      · rw [get?_set_ne _ _ _ _ hjk] at hwj
        exact hs.widDistinct i j wi wj hij hwi hwj
  · exact hs.usedFresh
  · intro i wi hwi
    by_cases hik : k = i
    · subst hik
      rw [get?_set_self _ _ _ hk] at hwi
      cases hwi
      exact hs.widUsed k w hw
    · rw [get?_set_ne _ _ _ _ hik] at hwi
      exact hs.widUsed i wi hwi
  · exact fun p hp => hs.activeFresh p (List.mem_of_mem_filter hp)
  · exact hs.activeOwners.sublist (List.filter_sublist _)
  · exact hs.activeKeys.sublist (List.filter_sublist _)
  · intro p hp j hmem
    exact hs.activeQueue p (List.mem_of_mem_filter hp) j (hqsub j p.1 hmem)
  · intro j u hu
    exact hs.queueFresh j u (hqsub j u hu)
  · intro j
    dsimp only
    by_cases hjk : k = j
    · subst hjk
      by_cases hlen : k < s.taskQueues.length
      · rw [getD_set_self _ _ _ _ hlen]
        exact List.nodup_nil
      · rw [List.set_eq_of_length_le (by omega)]
        exact hs.queuesNodup k
    · rw [getD_set_ne _ _ _ _ _ hjk]
      exact hs.queuesNodup j
  · intro j1 j2 hj u hu hmem
    exact hs.queueCross j1 j2 hj u (hqsub j1 u hu) (hqsub j2 u hmem)
  · exact hs.outcomesFresh
  · intro p hp
    obtain ⟨j, wj, hwj, hid, hinst⟩ := hs.activeOwnerLive p (List.mem_of_mem_filter hp)
    by_cases hjk : k = j
    · subst hjk
      have hww : wj = w := by
        rw [hw] at hwj
        exact (Option.some.inj hwj).symm
      have hpw : p.2 ≠ w.id := by
        have := List.of_mem_filter hp
        simpa using this
      rw [hww] at hid
      exact absurd hid.symm hpw
    · exact ⟨j, wj, by rw [get?_set_ne _ _ _ _ hjk]; exact hwj, hid, hinst⟩
  · exact hs.enqFresh
  · exact hs.enqSorted
  · intro j
    dsimp only
    by_cases hjk : k = j
    · subst hjk
      by_cases hlen : k < s.taskQueues.length
      · rw [getD_set_self _ _ _ _ hlen]
        rw [List.append_nil]
        exact (List.sublist_append_left _ _).trans (hs.dispSub k)
      · rw [List.set_eq_of_length_le (by omega)]
        exact hs.dispSub k
    · rw [getD_set_ne _ _ _ _ _ hjk]
      exact hs.dispSub j

theorem replace_inv {s : SchedState} (hs : SchedInv s) (r : Nat) :
    SchedInv (replaceWorker s r).1 := by
  cases hfi : findIndex (fun x => x.inst == some r) s.workers with
  | none =>
      unfold replaceWorker
      rw [hfi]
      exact hs
  | some k =>
      obtain ⟨⟨w, hw, hp⟩, _⟩ := (findIndex_eq_some _ _ _).mp hfi
      have hr : w.inst = some r := by simpa using hp
      rw [replaceWorker_spec hs k w r hw hr]
      have hk : k < s.workers.length := by
        by_contra hge
        rw [List.get?_eq_none.mpr (by omega)] at hw
        cases hw
      refine spawn_inv (replace_mid_inv hs k w hw) k (by simpa using hk) ?_
      intro w0 hw0
      rw [get?_set_self _ _ _ hk] at hw0
      cases hw0
      refine ⟨rfl, ?_⟩
      intro p hp
      have := List.of_mem_filter hp
      simpa using this

theorem settleOutcome_mem {outs : List (Nat × Outcome)} {tid : Nat} {o : Outcome} :
    ∀ q ∈ settleOutcome outs tid o, q ∈ outs ∨ q = (tid, o) := by
  intro q hq
  unfold settleOutcome at hq
  by_cases h : (outs.find? (fun p => p.1 == tid)).isSome = true
  · rw [if_pos h] at hq
    exact Or.inl hq
  · rw [if_neg h] at hq
    rcases List.mem_append.mp hq with hm | hm
    · exact Or.inl hm
    · exact Or.inr (List.mem_singleton.mp hm)

theorem settleAll_mem {rejs outs : List (Nat × Outcome)} :
    ∀ q ∈ settleAll outs rejs, q ∈ outs ∨ q ∈ rejs := by
  induction rejs generalizing outs with
  | nil => exact fun q hq => Or.inl hq
  | cons r rest ih =>
      intro q hq
      rcases ih q hq with hm | hm
      · rcases settleOutcome_mem q hm with hm2 | hm2
        · exact Or.inl hm2
        · exact Or.inr (by rw [hm2]; exact List.mem_cons_self _ _)
      · exact Or.inr (List.mem_cons_of_mem _ hm)

theorem replace_nextId_mono (s : SchedState) (r : Nat) :
    s.nextId ≤ (replaceWorker s r).1.nextId := by
  unfold replaceWorker
  cases findIndex (fun w => w.inst == some r) s.workers with
  | none => exact Nat.le_refl _
  | some k => exact Nat.le_succ _

theorem replace_queues_sub (s : SchedState) (r : Nat) :
    ∀ j u, u ∈ (replaceWorker s r).1.taskQueues.getD j [] →
      u ∈ s.taskQueues.getD j [] := by
  unfold replaceWorker
  cases findIndex (fun w => w.inst == some r) s.workers with
  | none => exact fun j u hu => hu
  | some k =>
      dsimp only [spawnWorker]
      intro j u hu
      by_cases hjk : k = j
      · subst hjk
        by_cases hlen : k < s.taskQueues.length
        · rw [getD_set_self _ _ _ _ hlen] at hu
          cases hu
        · rw [List.set_eq_of_length_le (by omega)] at hu
          exact hu
      · rwa [getD_set_ne _ _ _ _ _ hjk] at hu

theorem replace_active_sub (s : SchedState) (r : Nat) :
    ∀ p ∈ (replaceWorker s r).1.activeTasks, p ∈ s.activeTasks := by
  unfold replaceWorker
  cases findIndex (fun w => w.inst == some r) s.workers with
  | none => exact fun p hp => hp
  | some k =>
      dsimp only [spawnWorker]
      exact fun p hp => List.mem_of_mem_filter hp

/-- Every rejection issued by `replaceWorker` concerns an existing task id,
is of the `WorkerCrash` class, and its task is gone from the new state. -/
theorem replace_rejs {s : SchedState} (hs : SchedInv s) (r : Nat) :
    ∀ q ∈ (replaceWorker s r).2,
      q.1 < s.nextId ∧
      (∀ p ∈ (replaceWorker s r).1.activeTasks, p.1 ≠ q.1) ∧
      (∀ j, q.1 ∉ (replaceWorker s r).1.taskQueues.getD j []) ∧
      q.2.isWorkerCrashClass = true := by
  cases hfi : findIndex (fun x => x.inst == some r) s.workers with
  | none =>
      unfold replaceWorker
      rw [hfi]
      intro q hq
      cases hq
  | some k =>
      obtain ⟨⟨w, hw, hp⟩, _⟩ := (findIndex_eq_some _ _ _).mp hfi
      have hr : w.inst = some r := by simpa using hp
      have hk : k < s.taskQueues.length := by
        rw [hs.lenQ]
        by_contra hge
        rw [List.get?_eq_none.mpr (by omega)] at hw
        cases hw
      rw [replaceWorker_spec hs k w r hw hr]
      dsimp only [spawnWorker]
      intro q hq
      rcases List.mem_append.mp hq with hact | hque
      · obtain ⟨p, hpmem, hpe⟩ := List.mem_map.mp hact
        have hpa : p ∈ s.activeTasks := List.mem_of_mem_filter hpmem
        have hpw : p.2 = w.id := by simpa using List.of_mem_filter hpmem
        subst hpe
        refine ⟨hs.activeFresh p hpa, ?_, ?_, rfl⟩
        · intro p2 hp2 heq
          have hp2a : p2 ∈ s.activeTasks := List.mem_of_mem_filter hp2
          have hp2w : p2.2 ≠ w.id := by simpa using List.of_mem_filter hp2
          have hne : p2 ≠ p := fun he => hp2w (he ▸ hpw)
          exact absurd heq
            (List.Pairwise.forall (fun a b h => Ne.symm h) hs.activeKeys hp2a hpa hne)
        · intro j hmem
          by_cases hjk : k = j
          · subst hjk
            rw [getD_set_self _ _ _ _ hk] at hmem
            cases hmem
          · rw [getD_set_ne _ _ _ _ _ hjk] at hmem
            exact hs.activeQueue p hpa j hmem
      · obtain ⟨t, htmem, hte⟩ := List.mem_map.mp hque
        subst hte
        refine ⟨hs.queueFresh k t htmem, ?_, ?_, rfl⟩
        · intro p2 hp2 heq
          have hp2a : p2 ∈ s.activeTasks := List.mem_of_mem_filter hp2
          exact hs.activeQueue p2 hp2a k (heq ▸ htmem)
        · intro j hmem
          by_cases hjk : k = j
          · subst hjk
            rw [getD_set_self _ _ _ _ hk] at hmem
            cases hmem
          · rw [getD_set_ne _ _ _ _ _ hjk] at hmem
            exact hs.queueCross k j hjk t htmem hmem

theorem send_inv {s : SchedState} (hs : SchedInv s) (k : Nat) :
    SchedInv (sendEvent s k) := by
  unfold sendEvent
  dsimp only
  by_cases hk : s.workers.length ≤ k
  · rw [if_pos hk]
    refine ⟨hs.lenQ, hs.lenE, hs.lenD,
      fun i w hw => Nat.lt_succ_of_lt (hs.widFresh i w hw),
      fun i w r hw hr => Nat.lt_succ_of_lt (hs.refFresh i w r hw hr),
      hs.refDistinct, hs.widDistinct,
      fun u hu => Nat.lt_succ_of_lt (hs.usedFresh u hu),
      hs.widUsed,
      fun p hp => Nat.lt_succ_of_lt (hs.activeFresh p hp),
      hs.activeOwners, hs.activeKeys, hs.activeQueue,
      fun j t ht => Nat.lt_succ_of_lt (hs.queueFresh j t ht),
      hs.queuesNodup, hs.queueCross, ?_,
      hs.activeOwnerLive,
      fun j t ht => Nat.lt_succ_of_lt (hs.enqFresh j t ht),
      hs.enqSorted, hs.dispSub⟩
    intro q hq
    rcases settleOutcome_mem q hq with hold | hnew
    · exact Nat.lt_succ_of_lt (hs.outcomesFresh q hold)
    · rw [hnew]
      exact Nat.lt_succ_self _
  · rw [if_neg hk]
    apply processQueue_inv
    have hklen : k < s.taskQueues.length := by rw [hs.lenQ]; omega
    have hklenE : k < s.enqueuedLog.length := by rw [hs.lenE]; omega
    have hqsub : ∀ j u, u ∈ (s.taskQueues.set k ((s.taskQueues.getD k []) ++ [s.nextId])).getD j [] →
        u ∈ s.taskQueues.getD j [] ∨ (j = k ∧ u = s.nextId) := by
      intro j u hu
      by_cases hjk : k = j
      · subst hjk
        rw [getD_set_self _ _ _ _ hklen] at hu
        rcases List.mem_append.mp hu with hm | hm
        · exact Or.inl hm
        · exact Or.inr ⟨rfl, List.mem_singleton.mp hm⟩
      · rw [getD_set_ne _ _ _ _ _ hjk] at hu
        exact Or.inl hu
    refine ⟨?_, ?_, hs.lenD,
      fun i w hw => Nat.lt_succ_of_lt (hs.widFresh i w hw),
      fun i w r hw hr => Nat.lt_succ_of_lt (hs.refFresh i w r hw hr),
      hs.refDistinct, hs.widDistinct,
      fun u hu => Nat.lt_succ_of_lt (hs.usedFresh u hu),
      hs.widUsed,
      fun p hp => Nat.lt_succ_of_lt (hs.activeFresh p hp),
      hs.activeOwners, hs.activeKeys, ?_, ?_, ?_, ?_,
      fun q hq => Nat.lt_succ_of_lt (hs.outcomesFresh q hq),
      hs.activeOwnerLive, ?_, ?_, ?_⟩
    · simpa using hs.lenQ
    · simpa using hs.lenE
    · intro p hp j hmem
      rcases hqsub j p.1 hmem with hm | ⟨_, hm⟩
      · exact hs.activeQueue p hp j hm
      · exact absurd hm (by have := hs.activeFresh p hp; omega)
    · intro j u hu
      rcases hqsub j u hu with hm | ⟨_, hm⟩
      · exact Nat.lt_succ_of_lt (hs.queueFresh j u hm)
      · rw [hm]; exact Nat.lt_succ_self _
    · intro j
      by_cases hjk : k = j
      · subst hjk
        rw [getD_set_self _ _ _ _ hklen]
        rw [List.nodup_append]
        refine ⟨hs.queuesNodup k, List.nodup_singleton _, ?_⟩
        intro a ha hb
        rw [List.mem_singleton.mp hb] at ha
        exact absurd (hs.queueFresh k _ ha) (by omega)
      · rw [getD_set_ne _ _ _ _ _ hjk]
        exact hs.queuesNodup j
    · intro j1 j2 hj u hu hmem
      rcases hqsub j1 u hu with hm1 | ⟨hj1, hm1⟩
      · rcases hqsub j2 u hmem with hm2 | ⟨hj2, hm2⟩
        · exact hs.queueCross j1 j2 hj u hm1 hm2
        · have := hs.queueFresh j1 u hm1
          omega
      · rcases hqsub j2 u hmem with hm2 | ⟨hj2, hm2⟩
        · have := hs.queueFresh j2 u hm2
          omega
        · exact hj (hj1.trans hj2.symm)
    · intro j u hu
      dsimp only at hu ⊢
      by_cases hjk : k = j
      · subst hjk
        rw [getD_set_self _ _ _ _ hklenE] at hu
        rcases List.mem_append.mp hu with hm | hm
        · exact Nat.lt_succ_of_lt (hs.enqFresh k u hm)
        · rw [List.mem_singleton.mp hm]
          exact Nat.lt_succ_self _
      · rw [getD_set_ne _ _ _ _ _ hjk] at hu
        exact Nat.lt_succ_of_lt (hs.enqFresh j u hu)
    · intro j
      dsimp only
      by_cases hjk : k = j
      · subst hjk
        rw [getD_set_self _ _ _ _ hklenE]
        refine List.pairwise_append.mpr ⟨hs.enqSorted k, List.pairwise_singleton _ _, ?_⟩
        intro a ha b hb
        rw [List.mem_singleton.mp hb]
        exact hs.enqFresh k a ha
      · rw [getD_set_ne _ _ _ _ _ hjk]
        exact hs.enqSorted j
    · intro j
      dsimp only
      by_cases hjk : k = j
      · subst hjk
        rw [getD_set_self _ _ _ _ hklen, getD_set_self _ _ _ _ hklenE,
          ← List.append_assoc]
        exact (hs.dispSub k).append (List.Sublist.refl _)
      · rw [getD_set_ne _ _ _ _ _ hjk, getD_set_ne _ _ _ _ _ hjk]
        exact hs.dispSub j

theorem ready_inv {s : SchedState} (hs : SchedInv s) (k wid : Nat) :
    SchedInv (readyEvent s k wid) := by
  unfold readyEvent
  exact @processQueue_inv { s with readyIds := s.readyIds ++ [wid] } ⟨hs.lenQ, hs.lenE, hs.lenD, hs.widFresh, hs.refFresh,
    hs.refDistinct, hs.widDistinct, hs.usedFresh, hs.widUsed, hs.activeFresh, hs.activeOwners,
    hs.activeKeys, hs.activeQueue, hs.queueFresh, hs.queuesNodup, hs.queueCross,
    hs.outcomesFresh, hs.activeOwnerLive, hs.enqFresh, hs.enqSorted, hs.dispSub⟩ k

theorem taskMsg_inv {s : SchedState} (hs : SchedInv s) (k tid : Nat)
    (err : Option (List Char)) : SchedInv (taskMsgEvent s k tid err) := by
  unfold taskMsgEvent
  cases hf : s.activeTasks.find? (fun p => p.1 == tid) with
  | none => exact hs
  | some p =>
      dsimp only
      apply processQueue_inv
      have hpmem : p ∈ s.activeTasks := List.mem_of_find?_eq_some hf
      have hptid : p.1 = tid := by
        have := List.find?_some hf
        simpa using this
      refine ⟨hs.lenQ, hs.lenE, hs.lenD, hs.widFresh, hs.refFresh, hs.refDistinct, hs.widDistinct,
        hs.usedFresh, hs.widUsed,
        fun q hq => hs.activeFresh q (List.mem_of_mem_filter hq),
        hs.activeOwners.sublist (List.filter_sublist _),
        hs.activeKeys.sublist (List.filter_sublist _),
        fun q hq j => hs.activeQueue q (List.mem_of_mem_filter hq) j,
        hs.queueFresh, hs.queuesNodup, hs.queueCross, ?_, ?_,
        hs.enqFresh, hs.enqSorted, hs.dispSub⟩
      · intro q hq
        rcases settleOutcome_mem q hq with hold | hnew
        · exact hs.outcomesFresh q hold
        · rw [hnew]
          rw [← hptid]
          exact hs.activeFresh p hpmem
      · intro q hq
        exact hs.activeOwnerLive q (List.mem_of_mem_filter hq)

theorem crash_inv {s : SchedState} (hs : SchedInv s) (r : Nat) :
    SchedInv (crashEvent s r) := by
  unfold crashEvent
  dsimp only
  have h1 := replace_inv hs r
  have hrejs := replace_rejs hs r
  have hmono := replace_nextId_mono s r
  exact ⟨h1.lenQ, h1.lenE, h1.lenD, h1.widFresh, h1.refFresh, h1.refDistinct, h1.widDistinct,
    h1.usedFresh, h1.widUsed, h1.activeFresh, h1.activeOwners, h1.activeKeys,
    h1.activeQueue, h1.queueFresh, h1.queuesNodup, h1.queueCross,
    by
      intro q hq
      rcases settleAll_mem q hq with hold | hnew
      · exact h1.outcomesFresh q hold
      · exact Nat.lt_of_lt_of_le ((hrejs q hnew).1) hmono,
    h1.activeOwnerLive, h1.enqFresh, h1.enqSorted, h1.dispSub⟩

theorem timeout_inv {s : SchedState} (hs : SchedInv s) (tid : Nat)
    (ht : tid < s.nextId) : SchedInv (timeoutEvent s tid) := by
  unfold timeoutEvent
  cases hf : s.activeTasks.find? (fun p => p.1 == tid) with
  | none =>
      dsimp only
      refine ⟨hs.lenQ, hs.lenE, hs.lenD, hs.widFresh, hs.refFresh, hs.refDistinct, hs.widDistinct,
        hs.usedFresh, hs.widUsed, hs.activeFresh, hs.activeOwners, hs.activeKeys,
        hs.activeQueue, hs.queueFresh, hs.queuesNodup, hs.queueCross, ?_,
        hs.activeOwnerLive, hs.enqFresh, hs.enqSorted, hs.dispSub⟩
      intro q hq
      rcases settleOutcome_mem q hq with hold | hnew
      · exact hs.outcomesFresh q hold
      · rw [hnew]
        exact ht
  | some p =>
      dsimp only
      cases hfi : findIndex (fun w => w.id == p.2) s.workers with
      | none =>
          dsimp only
          refine ⟨hs.lenQ, hs.lenE, hs.lenD, hs.widFresh, hs.refFresh, hs.refDistinct, hs.widDistinct,
            hs.usedFresh, hs.widUsed,
            fun q hq => hs.activeFresh q (List.mem_of_mem_filter hq),
            hs.activeOwners.sublist (List.filter_sublist _),
            hs.activeKeys.sublist (List.filter_sublist _),
            fun q hq j => hs.activeQueue q (List.mem_of_mem_filter hq) j,
            hs.queueFresh, hs.queuesNodup, hs.queueCross, ?_,
            fun q hq => hs.activeOwnerLive q (List.mem_of_mem_filter hq),
            hs.enqFresh, hs.enqSorted, hs.dispSub⟩
          intro q hq
          rcases settleOutcome_mem q hq with hold | hnew
          · exact hs.outcomesFresh q hold
          · rw [hnew]
            exact ht
      | some j =>
          dsimp only
          cases hgi : (s.workers.get? j).bind WorkerInstance.inst with
          | none =>
              dsimp only
              refine ⟨hs.lenQ, hs.lenE, hs.lenD, hs.widFresh, hs.refFresh, hs.refDistinct, hs.widDistinct,
                hs.usedFresh, hs.widUsed,
                fun q hq => hs.activeFresh q (List.mem_of_mem_filter hq),
                hs.activeOwners.sublist (List.filter_sublist _),
                hs.activeKeys.sublist (List.filter_sublist _),
                fun q hq j2 => hs.activeQueue q (List.mem_of_mem_filter hq) j2,
                hs.queueFresh, hs.queuesNodup, hs.queueCross, ?_,
                fun q hq => hs.activeOwnerLive q (List.mem_of_mem_filter hq),
                hs.enqFresh, hs.enqSorted, hs.dispSub⟩
              intro q hq
              rcases settleOutcome_mem q hq with hold | hnew
              · exact hs.outcomesFresh q hold
              · rw [hnew]
                exact ht
          | some ref =>
              dsimp only
              have h1 := replace_inv hs ref
              have hrejs := replace_rejs hs ref
              have hmono := replace_nextId_mono s ref
              refine ⟨h1.lenQ, h1.lenE, h1.lenD, h1.widFresh, h1.refFresh, h1.refDistinct, h1.widDistinct,
                h1.usedFresh, h1.widUsed,
                fun q hq => h1.activeFresh q (List.mem_of_mem_filter hq),
                h1.activeOwners.sublist (List.filter_sublist _),
                h1.activeKeys.sublist (List.filter_sublist _),
                fun q hq j2 => h1.activeQueue q (List.mem_of_mem_filter hq) j2,
                h1.queueFresh, h1.queuesNodup, h1.queueCross, ?_,
                fun q hq => h1.activeOwnerLive q (List.mem_of_mem_filter hq),
                h1.enqFresh, h1.enqSorted, h1.dispSub⟩
              intro q hq
              rcases settleAll_mem q hq with hq2 | hnew
              · rcases settleOutcome_mem q hq2 with hold | hnew2
                · exact h1.outcomesFresh q hold
                · rw [hnew2]
                  exact Nat.lt_of_lt_of_le ht hmono
              · exact Nat.lt_of_lt_of_le ((hrejs q hnew).1) hmono

theorem getD_append_lt {α : Type} (l : List α) (x : α) (j : Nat) (d : α)
    (h : j < l.length) : (l ++ [x]).getD j d = l.getD j d := by
  induction l generalizing j with
  | nil => simp at h
  | cons a as ih =>
      cases j with
      | zero => rfl
      | succ j => exact ih j (by simpa using h)

theorem getD_append_len {α : Type} (l : List α) (x : α) (d : α) :
    (l ++ [x]).getD l.length d = x := by
  induction l with
  | nil => rfl
  | cons a as ih => simpa using ih

theorem getD_append_gt {α : Type} (l : List α) (x : α) (j : Nat) (d : α)
    (h : l.length < j) : (l ++ [x]).getD j d = d := by
  induction l generalizing j with
  | nil =>
      cases j with
      | zero => simp at h
      | succ j => rfl
  | cons a as ih =>
      cases j with
      | zero => simp at h
      | succ j => exact ih j (by simpa using h)

theorem get?_append_single {α : Type} (l : List α) (x : α) (j : Nat) (w : α)
    (h : (l ++ [x]).get? j = some w) :
    (l.get? j = some w ∧ j < l.length) ∨ (j = l.length ∧ w = x) := by
  rcases Nat.lt_trichotomy j l.length with hlt | heq | hgt
  · exact Or.inl ⟨by rw [← List.get?_append hlt]; exact h, hlt⟩
  · subst heq
    rw [List.get?_concat_length] at h
    exact Or.inr ⟨rfl, (Option.some.inj h).symm⟩
  · exfalso
    have hnone : (l ++ [x]).get? j = none := by
      rw [List.get?_eq_none]
      simp only [List.length_append, List.length_cons, List.length_nil]
      omega
    rw [hnone] at h
    cases h

theorem getD_append_nil_cases {α : Type} (l : List (List α)) (j : Nat) :
    (l ++ [([] : List α)]).getD j [] = l.getD j [] ∨
    (l ++ [([] : List α)]).getD j [] = [] := by
  rcases Nat.lt_trichotomy j l.length with hlt | heq | hgt
  · exact Or.inl (getD_append_lt l [] j [] hlt)
  · subst heq
    exact Or.inr (getD_append_len l [] [])
  · exact Or.inr (getD_append_gt l [] j [] hgt)

theorem emptySched_inv : SchedInv emptySched := by
  refine ⟨rfl, rfl, rfl, ?_, ?_, ?_, ?_, ?_, ?_, ?_, ?_, ?_, ?_, ?_, ?_, ?_, ?_, ?_, ?_, ?_, ?_⟩
    <;> simp [emptySched]

theorem initSlot_inv {s : SchedState} (hs : SchedInv s) (i : Nat)
    (hlen : s.workers.length = i) :
    SchedInv (initSlot s i) ∧ (initSlot s i).workers.length = i + 1 := by
  have hq : ¬ i < s.taskQueues.length := by rw [hs.lenQ, hlen]; omega
  have he : ¬ i < s.enqueuedLog.length := by rw [hs.lenE, hlen]; omega
  have hd : ¬ i < s.dispatchLog.length := by rw [hs.lenD, hlen]; omega
  have hw : ¬ i < s.workers.length := by omega
  have hstep : initSlot s i =
      { s with workers := s.workers ++ [⟨s.nextId, some s.nextId⟩],
               taskQueues := s.taskQueues ++ [[]],
               enqueuedLog := s.enqueuedLog ++ [[]],
               dispatchLog := s.dispatchLog ++ [[]],
               nextId := s.nextId + 1,
               usedWorkerIds := s.usedWorkerIds ++ [s.nextId] } := by
    unfold initSlot spawnWorker setOrPush
    dsimp only
    rw [if_neg hq, if_neg he, if_neg hd, if_neg hw]
  rw [hstep]
  have hqmem : ∀ j u, u ∈ (s.taskQueues ++ [[]]).getD j [] → u ∈ s.taskQueues.getD j [] := by
    intro j u hu
    rcases getD_append_nil_cases s.taskQueues j with hc | hc
    · rwa [hc] at hu
    · rw [hc] at hu
      cases hu
  constructor
  · refine ⟨?_, ?_, ?_, ?_, ?_, ?_, ?_, ?_, ?_, ?_, ?_, ?_, ?_, ?_, ?_, ?_, ?_, ?_, ?_, ?_, ?_⟩
    · simp only [List.length_append, List.length_cons, List.length_nil]
      rw [hs.lenQ]
    · simp only [List.length_append, List.length_cons, List.length_nil]
      rw [hs.lenE]
    · simp only [List.length_append, List.length_cons, List.length_nil]
      rw [hs.lenD]
    · intro j wj hwj
      rcases get?_append_single _ _ _ _ hwj with ⟨hold, _⟩ | ⟨_, hnew⟩
      · exact Nat.lt_succ_of_lt (hs.widFresh j wj hold)
      · rw [hnew]
        exact Nat.lt_succ_self _
    · intro j wj r hwj hr
      rcases get?_append_single _ _ _ _ hwj with ⟨hold, _⟩ | ⟨_, hnew⟩
      · exact Nat.lt_succ_of_lt (hs.refFresh j wj r hold hr)
      · rw [hnew] at hr
        cases hr
        exact Nat.lt_succ_self _
    · intro a b wa wb r hab hwa hwb hra
      rcases get?_append_single _ _ _ _ hwa with ⟨holda, hlta⟩ | ⟨hea, hnewa⟩
      · rcases get?_append_single _ _ _ _ hwb with ⟨holdb, hltb⟩ | ⟨heb, hnewb⟩
        · exact hs.refDistinct a b wa wb r hab holda holdb hra
        · rw [hnewb]
          have := hs.refFresh a wa r holda hra
          intro hcon
          cases hcon
          omega
      · rw [hnewa] at hra
        cases hra
        rcases get?_append_single _ _ _ _ hwb with ⟨holdb, hltb⟩ | ⟨heb, hnewb⟩
        · intro hcon
          have := hs.refFresh b wb _ holdb hcon
          omega
        · exact absurd (hea.trans heb.symm) hab
    · intro a b wa wb hab hwa hwb
      rcases get?_append_single _ _ _ _ hwa with ⟨holda, _⟩ | ⟨hea, hnewa⟩
      · rcases get?_append_single _ _ _ _ hwb with ⟨holdb, _⟩ | ⟨heb, hnewb⟩
        · exact hs.widDistinct a b wa wb hab holda holdb
        · rw [hnewb]
          have := hs.widFresh a wa holda
          dsimp only
          omega
      · rw [hnewa]
        rcases get?_append_single _ _ _ _ hwb with ⟨holdb, _⟩ | ⟨heb, hnewb⟩
        · have := hs.widFresh b wb holdb
          dsimp only
          omega
        · exact absurd (hea.trans heb.symm) hab
    · intro u hu
      rcases List.mem_append.mp hu with hold | hnew
      · exact Nat.lt_succ_of_lt (hs.usedFresh u hold)
      · rw [List.mem_singleton.mp hnew]
        exact Nat.lt_succ_self _
    · intro j wj hwj
      rcases get?_append_single _ _ _ _ hwj with ⟨hold, _⟩ | ⟨_, hnew⟩
      · exact List.mem_append_left _ (hs.widUsed j wj hold)
      · rw [hnew]
        exact List.mem_append_right _ (List.mem_singleton_self _)
    · exact fun p hp => Nat.lt_succ_of_lt (hs.activeFresh p hp)
    · exact hs.activeOwners
    · exact hs.activeKeys
    · intro p hp j hmem
      exact hs.activeQueue p hp j (hqmem j p.1 hmem)
    · intro j u hu
      exact Nat.lt_succ_of_lt (hs.queueFresh j u (hqmem j u hu))
    · intro j
      dsimp only
      rcases getD_append_nil_cases s.taskQueues j with hc | hc
      · rw [hc]
        exact hs.queuesNodup j
      · rw [hc]
        exact List.nodup_nil
    · intro j1 j2 hj u hu hmem
      exact hs.queueCross j1 j2 hj u (hqmem j1 u hu) (hqmem j2 u hmem)
    · exact fun q hq => Nat.lt_succ_of_lt (hs.outcomesFresh q hq)
    · intro p hp
      obtain ⟨j, wj, hwj, hid, hinst⟩ := hs.activeOwnerLive p hp
      have hjlt : j < s.workers.length := by
        by_contra hge
        rw [List.get?_eq_none.mpr (by omega)] at hwj
        cases hwj
      exact ⟨j, wj, by rw [List.get?_append hjlt]; exact hwj, hid, hinst⟩
    · intro j u hu
      dsimp only at hu ⊢
      rcases getD_append_nil_cases s.enqueuedLog j with hc | hc
      · rw [hc] at hu
        exact Nat.lt_succ_of_lt (hs.enqFresh j u hu)
      · rw [hc] at hu
        cases hu
    · intro j
      dsimp only
      rcases getD_append_nil_cases s.enqueuedLog j with hc | hc
      · rw [hc]
        exact hs.enqSorted j
      · rw [hc]
        exact List.sorted_nil
    · intro j
      dsimp only
      rcases Nat.lt_trichotomy j s.workers.length with hlt | heq | hgt
      · rw [getD_append_lt _ _ _ _ (by rw [hs.lenD]; exact hlt),
          getD_append_lt _ _ _ _ (by rw [hs.lenQ]; exact hlt),
          getD_append_lt _ _ _ _ (by rw [hs.lenE]; exact hlt)]
        exact hs.dispSub j
      · subst heq
        have h1 : (s.dispatchLog ++ [[]]).getD s.workers.length [] = [] := by
          rw [show s.workers.length = s.dispatchLog.length from hs.lenD.symm]
          exact getD_append_len _ _ _
        have h2 : (s.taskQueues ++ [[]]).getD s.workers.length [] = [] := by
          rw [show s.workers.length = s.taskQueues.length from hs.lenQ.symm]
          exact getD_append_len _ _ _
        have h3 : (s.enqueuedLog ++ [[]]).getD s.workers.length [] = [] := by
          rw [show s.workers.length = s.enqueuedLog.length from hs.lenE.symm]
          exact getD_append_len _ _ _
        rw [h1, h2, h3]
        exact List.Sublist.refl _
      · rw [getD_append_gt _ _ _ _ (by rw [hs.lenD]; exact hgt),
          getD_append_gt _ _ _ _ (by rw [hs.lenQ]; exact hgt),
          getD_append_gt _ _ _ _ (by rw [hs.lenE]; exact hgt)]
        exact List.Sublist.refl _
  · simp only [List.length_append, List.length_cons, List.length_nil]
    omega

theorem initState_inv (n : Nat) :
    SchedInv (initState n) ∧ (initState n).workers.length = n := by
  unfold initState
  induction n with
  | zero => exact ⟨emptySched_inv, rfl⟩
  | succ m ih =>
      rw [List.range_succ, List.foldl_append, List.foldl_cons, List.foldl_nil]
      exact initSlot_inv ih.1 m ih.2

/-- Every reachable scheduler state is wellformed. -/
theorem reachable_inv {n : Nat} {s : SchedState} (h : SchedReachable n s) :
    SchedInv s := by
  induction h with
  | init => exact (initState_inv n).1
  | step hr hstep ih =>
      cases hstep with
      | send k => exact send_inv ih k
      | ready k wid => exact ready_inv ih k wid
      | taskMsg k tid err => exact taskMsg_inv ih k tid err
      | crash ref => exact crash_inv ih ref
      | exitNonZero ref code hc => exact crash_inv ih ref
      | timeout tid ht => exact timeout_inv ih tid ht

/-! ### Claim theorems for the scheduler -/

/-- Amended claim of `C2`: in every reachable scheduler state,
`processQueueForWorker` (the `tryDispatch` of the spec) dispatches the head
of slot `k`'s queue if and only if the slot holds a live (non-null) worker
instance, the queue is non-empty, and no task is in flight for that worker's
identity — worker readiness is not consulted (see
`dispatch_before_ready_cx`); when it dispatches, exactly the queue head
moves to the in-flight table; and at most one task is in flight per worker
identity (hence per slot) at any instant. -/
theorem tryDispatch_spec {n : Nat} {s : SchedState} (hr : SchedReachable n s) (k : Nat) :
    (processQueueForWorker s k ≠ s ↔
      ∃ w t rest, s.workers.get? k = some w ∧ w.inst.isSome = true ∧
        s.taskQueues.getD k [] = t :: rest ∧ isWorkerBusy s w.id = false) ∧
    (∀ w t rest, s.workers.get? k = some w → w.inst.isSome = true →
      s.taskQueues.getD k [] = t :: rest → isWorkerBusy s w.id = false →
      (processQueueForWorker s k).activeTasks = s.activeTasks ++ [(t, w.id)] ∧
      (processQueueForWorker s k).taskQueues.getD k [] = rest) ∧
    s.activeTasks.Pairwise (fun a b => a.2 ≠ b.2) := by
  have hinv := reachable_inv hr
  have hd : ∀ w t rest, s.workers.get? k = some w → w.inst.isSome = true →
      s.taskQueues.getD k [] = t :: rest → isWorkerBusy s w.id = false →
      processQueueForWorker s k =
        { s with taskQueues := s.taskQueues.set k rest,
                 activeTasks := s.activeTasks ++ [(t, w.id)],
                 dispatchLog := s.dispatchLog.set k
                   ((s.dispatchLog.getD k []) ++ [t]) } := by
    intro w t rest hw hinst hq hbusy
    unfold processQueueForWorker
    rw [hw]
    dsimp only
    cases hi : w.inst with
    | none => rw [hi] at hinst; cases hinst
    | some r =>
        dsimp only
        rw [if_neg (by rw [hq, hbusy]; simp), hq]
  refine ⟨⟨?_, ?_⟩, ?_, hinv.activeOwners⟩
  · intro hne
    rcases processQueue_cases s k with heq | ⟨w, t, rest, hw, hinst, hq, hbusy, _⟩
    · exact absurd heq hne
    · exact ⟨w, t, rest, hw, hinst, hq, hbusy⟩
  · rintro ⟨w, t, rest, hw, hinst, hq, hbusy⟩
    rw [hd w t rest hw hinst hq hbusy]
    intro heq
    have := congrArg (fun st => st.activeTasks.length) heq
    simp at this
  · intro w t rest hw hinst hq hbusy
    rw [hd w t rest hw hinst hq hbusy]
    have hklen : k < s.taskQueues.length := by
      by_contra hge
      rw [List.getD_eq_default _ _ (by omega)] at hq
      cases hq
    exact ⟨rfl, getD_set_self _ _ _ _ hklen⟩

/-- Witness for `tryDispatch_spec`, instantiated in the initial one-slot
state where the queue is empty and nothing dispatches. -/
theorem tryDispatch_spec_witness :
    (processQueueForWorker (initState 1) 0 ≠ initState 1 ↔
      ∃ w t rest, (initState 1).workers.get? 0 = some w ∧ w.inst.isSome = true ∧
        (initState 1).taskQueues.getD 0 [] = t :: rest ∧
        isWorkerBusy (initState 1) w.id = false) ∧
    (∀ w t rest, (initState 1).workers.get? 0 = some w → w.inst.isSome = true →
      (initState 1).taskQueues.getD 0 [] = t :: rest →
      isWorkerBusy (initState 1) w.id = false →
      (processQueueForWorker (initState 1) 0).activeTasks =
        (initState 1).activeTasks ++ [(t, w.id)] ∧
      (processQueueForWorker (initState 1) 0).taskQueues.getD 0 [] = rest) ∧
    (initState 1).activeTasks.Pairwise (fun a b => a.2 ≠ b.2) :=
  tryDispatch_spec SchedReachable.init 0

/-- Counterexample to `C2` as stated: starting from the freshly initialized
one-slot pool, whose worker has not posted `ready` (the spec status is still
`Spawning`), a single `sendTaskToWorker` dispatches the task immediately —
so dispatch does not require the worker to be Ready. -/
theorem dispatch_before_ready_cx :
    SchedReachable 1 (sendEvent (initState 1) 0) ∧
    slotReady (initState 1) 0 = false ∧
    slotReady (sendEvent (initState 1) 0) 0 = false ∧
    (sendEvent (initState 1) 0).activeTasks = [(1, 0)] ∧
    (sendEvent (initState 1) 0).dispatchLog.getD 0 [] = [1] :=
  ⟨SchedReachable.step SchedReachable.init (SchedStep.send _ 0),
   by decide, by decide, by decide, by decide⟩

/-- Occurrence of `a` strictly before `b` in the list `l`. -/
def listBefore (l : List Nat) (a b : Nat) : Prop :=
  ∃ i j, i < j ∧ l.get? i = some a ∧ l.get? j = some b

theorem listBefore_lt {l : List Nat} (hs : List.Sorted (· < ·) l) {a b : Nat}
    (h : listBefore l a b) : a < b := by
  obtain ⟨i, j, hij, ha, hb⟩ := h
  obtain ⟨hi, ha⟩ := List.get?_eq_some.mp ha
  obtain ⟨hj, hb⟩ := List.get?_eq_some.mp hb
  rw [← ha, ← hb]
  exact hs.rel_get_of_lt hij

theorem listBefore_of_mem_lt {l : List Nat} (hs : List.Sorted (· < ·) l) {a b : Nat}
    (ha : a ∈ l) (hb : b ∈ l) (hab : a < b) : listBefore l a b := by
  obtain ⟨i, hia⟩ := List.mem_iff_get?.mp ha
  obtain ⟨j, hjb⟩ := List.mem_iff_get?.mp hb
  refine ⟨i, j, ?_, hia, hjb⟩
  obtain ⟨hi, hia'⟩ := List.get?_eq_some.mp hia
  obtain ⟨hj, hjb'⟩ := List.get?_eq_some.mp hjb
  rcases Nat.lt_trichotomy i j with h | h | h
  · exact h
  · subst h
    rw [hia'] at hjb'
    omega
  · have := hs.rel_get_of_lt (show (⟨j, hj⟩ : Fin l.length) < ⟨i, hi⟩ from h)
    rw [hia', hjb'] at this
    omega

/-- The claim of `C3`: per-slot dispatch order is strict arrival order.  In
every reachable state, if task `a` was enqueued to slot `k` before task `b`
(whatever sessions they belong to) and both have been dispatched, then `a`
was dispatched before `b`; moreover the whole per-slot dispatch log is an
order-preserving selection (a sublist) of the per-slot enqueue log. -/
theorem perSlot_fifo {n : Nat} {s : SchedState} (hr : SchedReachable n s)
    (k a b : Nat) (hab : listBefore (s.enqueuedLog.getD k []) a b)
    (ha : a ∈ s.dispatchLog.getD k []) (hb : b ∈ s.dispatchLog.getD k []) :
    listBefore (s.dispatchLog.getD k []) a b ∧
    (s.dispatchLog.getD k []).Sublist (s.enqueuedLog.getD k []) := by
  have hinv := reachable_inv hr
  have hsub : (s.dispatchLog.getD k []).Sublist (s.enqueuedLog.getD k []) :=
    (List.sublist_append_left _ _).trans (hinv.dispSub k)
  have hdsorted : List.Sorted (· < ·) (s.dispatchLog.getD k []) :=
    (hinv.enqSorted k).sublist hsub
  exact ⟨listBefore_of_mem_lt hdsorted ha hb
    (listBefore_lt (hinv.enqSorted k) hab), hsub⟩

/-- Witness for `perSlot_fifo`: after dispatching task 1, completing it and
dispatching task 2 on the single slot, the dispatch log `[1, 2]` preserves
the enqueue order. -/
theorem perSlot_fifo_witness :
    listBefore ((sendEvent (taskMsgEvent (sendEvent (initState 1) 0) 0 1 none) 0).dispatchLog.getD 0 []) 1 2 ∧
    ((sendEvent (taskMsgEvent (sendEvent (initState 1) 0) 0 1 none) 0).dispatchLog.getD 0 []).Sublist
      ((sendEvent (taskMsgEvent (sendEvent (initState 1) 0) 0 1 none) 0).enqueuedLog.getD 0 []) := by
  have hreach : SchedReachable 1
      (sendEvent (taskMsgEvent (sendEvent (initState 1) 0) 0 1 none) 0) :=
    SchedReachable.step
      (SchedReachable.step
        (SchedReachable.step SchedReachable.init (SchedStep.send _ 0))
        (SchedStep.taskMsg _ 0 1 none))
      (SchedStep.send _ 0)
  exact perSlot_fifo hreach 0 1 2
    ⟨0, 1, by omega, by decide, by decide⟩ (by decide) (by decide)

/-- The claim of `C4`: when slot `k`'s live worker dies, `replaceWorker`
rejects every in-flight task owned by that worker's identity with a
`WorkerCrash`-class error and removes it, rejects every queued task of the
slot with a `WorkerCrash`-class error and clears the queue, and leaves the
queues, in-flight tasks and workers of every other slot untouched. -/
theorem replaceWorker_cleanup {n : Nat} {s : SchedState} (hr : SchedReachable n s)
    (k : Nat) (w : WorkerInstance) (r : Nat)
    (hw : s.workers.get? k = some w) (hinst : w.inst = some r) :
    (∀ p ∈ s.activeTasks, p.2 = w.id →
        (p.1, Outcome.workerCrashed w.id) ∈ (replaceWorker s r).2 ∧
        ∀ q ∈ (replaceWorker s r).1.activeTasks, q.1 ≠ p.1) ∧
    (∀ p ∈ s.activeTasks, p.2 ≠ w.id → p ∈ (replaceWorker s r).1.activeTasks) ∧
    (replaceWorker s r).1.taskQueues.getD k [] = [] ∧
    (∀ t ∈ s.taskQueues.getD k [],
        (t, Outcome.crashedBeforeDispatch k) ∈ (replaceWorker s r).2) ∧
    (∀ q ∈ (replaceWorker s r).2, q.2.isWorkerCrashClass = true) ∧
    (∀ j, j ≠ k →
        (replaceWorker s r).1.taskQueues.getD j [] = s.taskQueues.getD j [] ∧
        (replaceWorker s r).1.workers.get? j = s.workers.get? j ∧
        (replaceWorker s r).1.dispatchLog.getD j [] = s.dispatchLog.getD j [] ∧
        (replaceWorker s r).1.enqueuedLog.getD j [] = s.enqueuedLog.getD j []) := by
  have hinv := reachable_inv hr
  have hspec := replaceWorker_spec hinv k w r hw hinst
  have hk : k < s.workers.length := by
    by_contra hge
    rw [List.get?_eq_none.mpr (by omega)] at hw
    cases hw
  have hkq : k < s.taskQueues.length := by rw [hinv.lenQ]; exact hk
  have hrejs := replace_rejs hinv r
  refine ⟨?_, ?_, ?_, ?_, fun q hq => (hrejs q hq).2.2.2, ?_⟩
  · intro p hp hpw
    have hmem : (p.1, Outcome.workerCrashed w.id) ∈ (replaceWorker s r).2 := by
      rw [hspec]
      dsimp only
      exact List.mem_append_left _
        (List.mem_map.mpr ⟨p, List.mem_filter.mpr ⟨hp, by simp [hpw]⟩, rfl⟩)
    refine ⟨hmem, ?_⟩
    intro q hq
    have := (hrejs _ hmem).2.1 q hq
    simpa using this
  · intro p hp hpw
    rw [hspec]
    dsimp only [spawnWorker]
    exact List.mem_filter.mpr ⟨hp, by simp [hpw]⟩
  · rw [hspec]
    dsimp only [spawnWorker]
    exact getD_set_self _ _ _ _ hkq
  · intro t htm
    rw [hspec]
    dsimp only
    exact List.mem_append_right _ (List.mem_map.mpr ⟨t, htm, rfl⟩)
  · intro j hj
    rw [hspec]
    unfold spawnWorker setOrPush
    dsimp only
    rw [if_pos (by simp [hk])]
    refine ⟨getD_set_ne _ _ _ _ _ (fun he => hj he.symm), ?_, rfl, rfl⟩
    rw [get?_set_ne _ _ _ _ (fun he => hj he.symm),
      get?_set_ne _ _ _ _ (fun he => hj he.symm)]

/-- Witness for `replaceWorker_cleanup`: in the one-slot pool with task 1 in
flight, replacing the (live) worker rejects task 1 with the crash error,
clears the slot and leaves nothing else. -/
theorem replaceWorker_cleanup_witness :
    (∀ p ∈ (sendEvent (initState 1) 0).activeTasks,
        p.2 = (⟨0, some 0⟩ : WorkerInstance).id →
        (p.1, Outcome.workerCrashed (⟨0, some 0⟩ : WorkerInstance).id) ∈
          (replaceWorker (sendEvent (initState 1) 0) 0).2 ∧
        ∀ q ∈ (replaceWorker (sendEvent (initState 1) 0) 0).1.activeTasks, q.1 ≠ p.1) ∧
    (∀ p ∈ (sendEvent (initState 1) 0).activeTasks,
        p.2 ≠ (⟨0, some 0⟩ : WorkerInstance).id →
        p ∈ (replaceWorker (sendEvent (initState 1) 0) 0).1.activeTasks) ∧
    (replaceWorker (sendEvent (initState 1) 0) 0).1.taskQueues.getD 0 [] = [] ∧
    (∀ t ∈ (sendEvent (initState 1) 0).taskQueues.getD 0 [],
        (t, Outcome.crashedBeforeDispatch 0) ∈ (replaceWorker (sendEvent (initState 1) 0) 0).2) ∧
    (∀ q ∈ (replaceWorker (sendEvent (initState 1) 0) 0).2,
        q.2.isWorkerCrashClass = true) ∧
    (∀ j, j ≠ 0 →
        (replaceWorker (sendEvent (initState 1) 0) 0).1.taskQueues.getD j [] =
          (sendEvent (initState 1) 0).taskQueues.getD j [] ∧
        (replaceWorker (sendEvent (initState 1) 0) 0).1.workers.get? j =
          (sendEvent (initState 1) 0).workers.get? j ∧
        (replaceWorker (sendEvent (initState 1) 0) 0).1.dispatchLog.getD j [] =
          (sendEvent (initState 1) 0).dispatchLog.getD j [] ∧
        (replaceWorker (sendEvent (initState 1) 0) 0).1.enqueuedLog.getD j [] =
          (sendEvent (initState 1) 0).enqueuedLog.getD j []) :=
  replaceWorker_cleanup
    (SchedReachable.step SchedReachable.init (SchedStep.send _ 0))
    0 ⟨0, some 0⟩ 0 (by decide) rfl

/-- The claim of `C10`: `replaceWorker` is idempotent per `Worker` object.
A second invocation for the same crashed object reference finds no slot
holding it (the slot was nulled and respawned with a fresh reference), so it
changes nothing and issues no rejection — each worker failure rejects each
affected task at most once and spawns exactly one replacement. -/
theorem replaceWorker_idempotent {n : Nat} {s : SchedState} (hr : SchedReachable n s)
    (r : Nat) :
    replaceWorker (replaceWorker s r).1 r = ((replaceWorker s r).1, []) := by
  have hinv := reachable_inv hr
  cases hfi : findIndex (fun x => x.inst == some r) s.workers with
  | none =>
      have h1 : replaceWorker s r = (s, []) := by
        unfold replaceWorker
        rw [hfi]
      rw [h1]
      unfold replaceWorker
      rw [hfi]
  | some k =>
      obtain ⟨⟨w, hw, hp⟩, _⟩ := (findIndex_eq_some _ _ _).mp hfi
      have hr' : w.inst = some r := by simpa using hp
      have hk : k < s.workers.length := by
        by_contra hge
        rw [List.get?_eq_none.mpr (by omega)] at hw
        cases hw
      have hrlt : r < s.nextId := hinv.refFresh k w r hw hr'
      have hspec := replaceWorker_spec hinv k w r hw hr'
      have hnone : findIndex (fun x => x.inst == some r)
          (replaceWorker s r).1.workers = none := by
        rw [findIndex_eq_none]
        intro x hx
        obtain ⟨i, hi⟩ := List.mem_iff_get?.mp hx
        rw [hspec] at hi
        revert hi
        unfold spawnWorker setOrPush
        dsimp only
        rw [if_pos (by simp [hk])]
        intro hi
        by_cases hik : k = i
        · subst hik
          rw [get?_set_self _ _ _ (by simp [hk])] at hi
          cases hi
          simp
          omega
        · rw [get?_set_ne _ _ _ _ hik, get?_set_ne _ _ _ _ hik] at hi
          have := hinv.refDistinct k i w x r hik hw hi hr'
          simp [this]
      conv_lhs => rw [replaceWorker]
      rw [hnone]

/-- Witness for `replaceWorker_idempotent`, in the one-slot pool with one
task in flight. -/
theorem replaceWorker_idempotent_witness :
    replaceWorker (replaceWorker (sendEvent (initState 1) 0) 0).1 0 =
      ((replaceWorker (sendEvent (initState 1) 0) 0).1, []) :=
  replaceWorker_idempotent
    (SchedReachable.step SchedReachable.init (SchedStep.send _ 0)) 0

/-! ### Persistence of removed tasks (for `C5`) -/

/-- States reachable from `s` by scheduler events. -/
inductive SchedReachableFrom (s : SchedState) : SchedState → Prop
  | refl : SchedReachableFrom s s
  | step {t u : SchedState} : SchedReachableFrom s t → SchedStep t u →
      SchedReachableFrom s u

theorem processQueue_track (s : SchedState) (k : Nat) :
    (processQueueForWorker s k).nextId = s.nextId ∧
    (∀ p ∈ (processQueueForWorker s k).activeTasks,
        p ∈ s.activeTasks ∨ p.1 ∈ s.taskQueues.getD k []) ∧
    (∀ j u, u ∈ (processQueueForWorker s k).taskQueues.getD j [] →
        u ∈ s.taskQueues.getD j []) := by
  rcases processQueue_cases s k with heq | ⟨w, t, rest, hw, hinst, hq, hbusy, heq⟩
  · rw [heq]
    exact ⟨rfl, fun p hp => Or.inl hp, fun j u hu => hu⟩
  · rw [heq]
    have hklen : k < s.taskQueues.length := by
      by_contra hge
      rw [List.getD_eq_default _ _ (by omega)] at hq
      cases hq
    refine ⟨rfl, ?_, ?_⟩
    · intro p hp
      rcases List.mem_append.mp hp with h | h
      · exact Or.inl h
      · right
        rw [List.mem_singleton.mp h, hq]
        exact List.mem_cons_self _ _
    · intro j u hu
      by_cases hjk : k = j
      · subst hjk
        rw [getD_set_self _ _ _ _ hklen] at hu
        rw [hq]
        exact List.mem_cons_of_mem _ hu
      · rwa [getD_set_ne _ _ _ _ _ hjk] at hu

theorem step_preserves_gone {s t : SchedState} (hst : SchedStep s t) (tid : Nat)
    (h1 : tid < s.nextId) (h2 : ∀ p ∈ s.activeTasks, p.1 ≠ tid)
    (h3 : ∀ k, tid ∉ s.taskQueues.getD k []) :
    tid < t.nextId ∧ (∀ p ∈ t.activeTasks, p.1 ≠ tid) ∧
    (∀ k, tid ∉ t.taskQueues.getD k []) := by
  cases hst with
  | send k =>
      unfold sendEvent
      dsimp only
      by_cases hk : s.workers.length ≤ k
      · rw [if_pos hk]
        exact ⟨by dsimp only; omega, h2, h3⟩
      · rw [if_neg hk]
        set sm : SchedState :=
          { s with nextId := s.nextId + 1,
                   taskQueues := s.taskQueues.set k ((s.taskQueues.getD k []) ++ [s.nextId]),
                   enqueuedLog := s.enqueuedLog.set k ((s.enqueuedLog.getD k []) ++ [s.nextId]) }
          with hsm
        have hsmq : ∀ j u, u ∈ sm.taskQueues.getD j [] →
            u ∈ s.taskQueues.getD j [] ∨ u = s.nextId := by
          intro j u hu
          rw [hsm] at hu
          dsimp only at hu
          by_cases hjk : k = j
          · subst hjk
            by_cases hlen : k < s.taskQueues.length
            · rw [getD_set_self _ _ _ _ hlen] at hu
              rcases List.mem_append.mp hu with hm | hm
              · exact Or.inl hm
              · exact Or.inr (List.mem_singleton.mp hm)
            · rw [List.set_eq_of_length_le (by omega)] at hu
              exact Or.inl hu
          · rw [getD_set_ne _ _ _ _ _ hjk] at hu
            exact Or.inl hu
        obtain ⟨hn, ha, hq⟩ := processQueue_track sm k
        refine ⟨by rw [hn, hsm]; dsimp only; omega, ?_, ?_⟩
        · intro p hp
          rcases ha p hp with hm | hm
          · exact h2 p hm
          · intro he
            rcases hsmq k p.1 hm with hmm | hmm
            · exact h3 k (he ▸ hmm)
            · omega
        · intro j he
          rcases hsmq j tid (hq j tid he) with hmm | hmm
          · exact h3 j hmm
          · omega
  | ready k wid =>
      unfold readyEvent
      obtain ⟨hn, ha, hq⟩ := processQueue_track { s with readyIds := s.readyIds ++ [wid] } k
      refine ⟨by rw [hn]; exact h1, ?_, ?_⟩
      · intro p hp
        rcases ha p hp with hm | hm
        · exact h2 p hm
        · intro he
          exact h3 k (he ▸ hm)
      · intro j he
        exact h3 j (hq j tid he)
  | taskMsg k tid2 err =>
      unfold taskMsgEvent
      cases hf : s.activeTasks.find? (fun p => p.1 == tid2) with
      | none => exact ⟨h1, h2, h3⟩
      | some p =>
          dsimp only
          set sm : SchedState :=
            { s with outcomes := settleOutcome s.outcomes tid2
                       (match err with
                        | none => Outcome.resolved
                        | some msg => if strIncludes msg sessionMarker then
                            Outcome.notFound msg else Outcome.internal msg),
                     activeTasks := s.activeTasks.filter (fun q => q.1 != tid2) }
            with hsm
          obtain ⟨hn, ha, hq⟩ := processQueue_track sm k
          refine ⟨by rw [hn]; exact h1, ?_, ?_⟩
          · intro q hqa
            rcases ha q hqa with hm | hm
            · rw [hsm] at hm
              exact h2 q (List.mem_of_mem_filter hm)
            · intro he
              exact h3 k (he ▸ hm)
          · intro j he
            exact h3 j (hq j tid he)
  | crash ref =>
      unfold crashEvent
      dsimp only
      refine ⟨Nat.lt_of_lt_of_le h1 (replace_nextId_mono s ref), ?_, ?_⟩
      · exact fun p hp => h2 p (replace_active_sub s ref p hp)
      · exact fun j he => h3 j (replace_queues_sub s ref j tid he)
  | exitNonZero ref code hc =>
      unfold crashEvent
      dsimp only
      refine ⟨Nat.lt_of_lt_of_le h1 (replace_nextId_mono s ref), ?_, ?_⟩
      · exact fun p hp => h2 p (replace_active_sub s ref p hp)
      · exact fun j he => h3 j (replace_queues_sub s ref j tid he)
  | timeout tid2 ht2 =>
      unfold timeoutEvent
      cases hf : s.activeTasks.find? (fun p => p.1 == tid2) with
      | none => exact ⟨h1, h2, h3⟩
      | some p =>
          dsimp only
          cases hfi : findIndex (fun w => w.id == p.2) s.workers with
          | none =>
              exact ⟨h1, fun q hq => h2 q (List.mem_of_mem_filter hq), h3⟩
          | some j =>
              dsimp only
              cases hgi : (s.workers.get? j).bind WorkerInstance.inst with
              | none =>
                  exact ⟨h1, fun q hq => h2 q (List.mem_of_mem_filter hq), h3⟩
              | some ref =>
                  dsimp only
                  refine ⟨Nat.lt_of_lt_of_le h1 (replace_nextId_mono s ref), ?_, ?_⟩
                  · exact fun q hq => h2 q (replace_active_sub s ref q
                      (List.mem_of_mem_filter hq))
                  · exact fun j2 he => h3 j2 (replace_queues_sub s ref j2 tid he)

theorem reachableFrom_preserves_gone {s t : SchedState}
    (h : SchedReachableFrom s t) (tid : Nat)
    (h1 : tid < s.nextId) (h2 : ∀ p ∈ s.activeTasks, p.1 ≠ tid)
    (h3 : ∀ k, tid ∉ s.taskQueues.getD k []) :
    tid < t.nextId ∧ (∀ p ∈ t.activeTasks, p.1 ≠ tid) ∧
    (∀ k, tid ∉ t.taskQueues.getD k []) := by
  induction h with
  | refl => exact ⟨h1, h2, h3⟩
  | step hrf hstep ih =>
      obtain ⟨g1, g2, g3⟩ := ih
      exact step_preserves_gone hstep tid g1 g2 g3

/-- A worker message for a task id absent from `activeTasks` is ignored:
the scheduler state does not change. -/
theorem taskMsg_ignored {t : SchedState} (tid : Nat)
    (h2 : ∀ p ∈ t.activeTasks, p.1 ≠ tid) (k : Nat) (err : Option (List Char)) :
    taskMsgEvent t k tid err = t := by
  unfold taskMsgEvent
  rw [List.find?_eq_none.mpr (fun p hp => by simp [h2 p hp])]

theorem settleAll_ext (outs rejs : List (Nat × Outcome)) :
    ∃ ext, settleAll outs rejs = outs ++ ext := by
  induction rejs generalizing outs with
  | nil => exact ⟨[], by simp [settleAll]⟩
  | cons r rest ih =>
      have hstep : settleAll outs (r :: rest) =
          settleAll (settleOutcome outs r.1 r.2) rest := rfl
      rw [hstep]
      by_cases h : (outs.find? (fun p => p.1 == r.1)).isSome = true
      · have ho : settleOutcome outs r.1 r.2 = outs := by
          unfold settleOutcome
          rw [if_pos h]
        rw [ho]
        exact ih outs
      · have ho : settleOutcome outs r.1 r.2 = outs ++ [(r.1, r.2)] := by
          unfold settleOutcome
          rw [if_neg h]
        rw [ho]
        obtain ⟨ext, hext⟩ := ih (outs ++ [(r.1, r.2)])
        exact ⟨(r.1, r.2) :: ext, by rw [hext]; simp⟩

/-- The claim of `C5`: when the deadline timer fires for a task that is
in flight (`p` is its `activeTasks` record) and whose caller promise is
still unsettled, the caller is rejected with the `Timeout` outcome and no
other; the task record is removed; the owning slot — the one whose worker
carries the task's owner id — now holds a live replacement worker whose
identity was never used before (in particular it differs from the old
worker's); and from then on a worker message carrying that task id is
ignored in every subsequent reachable state. -/
theorem timeout_spec {n : Nat} {s : SchedState} (tid : Nat) (p : Nat × Nat)
    (hr : SchedReachable n s)
    (hf : s.activeTasks.find? (fun q => q.1 == tid) = some p)
    (ho : outcomeOf s tid = none) :
    outcomeOf (timeoutEvent s tid) tid = some Outcome.timeout ∧
    (∀ q ∈ (timeoutEvent s tid).activeTasks, q.1 ≠ tid) ∧
    (∃ j w w', s.workers.get? j = some w ∧ w.id = p.2 ∧
        (timeoutEvent s tid).workers.get? j = some w' ∧
        w'.inst.isSome = true ∧ w'.id ∉ s.usedWorkerIds ∧ w'.id ≠ w.id) ∧
    (∀ u, SchedReachableFrom (timeoutEvent s tid) u →
        ∀ k err, taskMsgEvent u k tid err = u) := by
  have hs := reachable_inv hr
  have hp : p ∈ s.activeTasks := List.mem_of_find?_eq_some hf
  have hpt : p.1 = tid := by simpa using List.find?_some hf
  obtain ⟨j, w, hw, hwid, hlive⟩ := hs.activeOwnerLive p hp
  cases hinst : w.inst with
  | none => rw [hinst] at hlive; cases hlive
  | some r =>
  have hjlen : j < s.workers.length := by
    rcases List.get?_eq_some.mp hw with ⟨h, _⟩
    exact h
  have hfi : findIndex (fun x => x.id == p.2) s.workers = some j := by
    rw [findIndex_eq_some]
    refine ⟨⟨w, hw, by simp [hwid]⟩, ?_⟩
    intro j2 hj2 u hu
    have hne : u.id ≠ p.2 := by
      intro he
      exact hs.widDistinct j2 j u w (by omega) hu hw (by rw [he, hwid])
    simp [hne]
  have hbind : (s.workers.get? j).bind WorkerInstance.inst = some r := by
    rw [hw]
    simpa using hinst
  have hrw := replaceWorker_spec hs j w r hw hinst
  have hstep : timeoutEvent s tid =
      { spawnWorker
          { s with workers := s.workers.set j ⟨w.id, none⟩,
                   activeTasks := s.activeTasks.filter (fun t => t.2 != w.id),
                   taskQueues := s.taskQueues.set j [] } j with
        activeTasks :=
          ((spawnWorker
            { s with workers := s.workers.set j ⟨w.id, none⟩,
                     activeTasks := s.activeTasks.filter (fun t => t.2 != w.id),
                     taskQueues := s.taskQueues.set j [] } j).activeTasks).filter
            (fun q => q.1 != tid),
        outcomes := settleAll
          (settleOutcome
            (spawnWorker
              { s with workers := s.workers.set j ⟨w.id, none⟩,
                       activeTasks := s.activeTasks.filter (fun t => t.2 != w.id),
                       taskQueues := s.taskQueues.set j [] } j).outcomes
            tid Outcome.timeout)
          ((s.activeTasks.filter (fun t => t.2 == w.id)).map
              (fun t => (t.1, Outcome.workerCrashed w.id)) ++
           (s.taskQueues.getD j []).map
              (fun t => (t, Outcome.crashedBeforeDispatch j))) } := by
    unfold timeoutEvent
    rw [hf]
    dsimp only
    rw [hfi]
    dsimp only
    rw [hbind]
    dsimp only
    rw [hrw]
  have htidlt : tid < s.nextId := hpt ▸ hs.activeFresh p hp
  have hfind_none : s.outcomes.find? (fun q => q.1 == tid) = none := by
    unfold outcomeOf at ho
    cases hx : s.outcomes.find? (fun q => q.1 == tid) with
    | none => rfl
    | some q => rw [hx] at ho; cases ho
  have hout1 : outcomeOf (timeoutEvent s tid) tid = some Outcome.timeout := by
    rw [hstep]
    unfold outcomeOf
    dsimp only [spawnWorker]
    have hsettle :
        settleOutcome s.outcomes tid Outcome.timeout =
          s.outcomes ++ [(tid, Outcome.timeout)] := by
      unfold settleOutcome
      rw [hfind_none]
      rfl
    rw [hsettle]
    obtain ⟨ext, hext⟩ := settleAll_ext (s.outcomes ++ [(tid, Outcome.timeout)]) _
    rw [hext, List.append_assoc, List.find?_append, hfind_none]
    simp
  have hact : ∀ q ∈ (timeoutEvent s tid).activeTasks, q.1 ≠ tid := by
    rw [hstep]
    intro q hq
    dsimp only at hq
    have hmem := List.of_mem_filter hq
    simpa using hmem
  refine ⟨hout1, hact, ?_, ?_⟩
  · refine ⟨j, w, ⟨s.nextId, some s.nextId⟩, hw, hwid, ?_, rfl, ?_, ?_⟩
    · rw [hstep]
      dsimp only [spawnWorker, setOrPush]
      rw [if_pos (by simpa using hjlen)]
      rw [List.set_set]
      exact get?_set_self _ _ _ hjlen
    · intro hmem
      have h2 : s.nextId < s.nextId := hs.usedFresh _ hmem
      omega
    · intro he
      have hfr := hs.widFresh j w hw
      have he2 : s.nextId = w.id := he
      omega
  · intro u hu k err
    have h1 : tid < (timeoutEvent s tid).nextId := by
      rw [hstep]
      dsimp only [spawnWorker]
      omega
    have h3 : ∀ k2, tid ∉ (timeoutEvent s tid).taskQueues.getD k2 [] := by
      intro k2 hmem
      rw [hstep] at hmem
      dsimp only [spawnWorker] at hmem
      by_cases hk : j = k2
      · subst hk
        rw [getD_set_self _ _ _ _ (by rw [hs.lenQ]; exact hjlen)] at hmem
        cases hmem
      · rw [getD_set_ne _ _ _ _ _ hk] at hmem
        exact hs.activeQueue p hp k2 (by rw [hpt]; exact hmem)
    obtain ⟨g1, g2, g3⟩ := reachableFrom_preserves_gone hu tid h1 hact h3
    exact taskMsg_ignored tid g2 k err

/-- Witness for `timeout_spec`: in the one-slot pool, task `1` is sent and
dispatched to worker id `0`, then its timer fires.  The caller settles at
`Timeout`, the task record is gone, slot `0` holds a live fresh-identity
replacement, and any later worker message for task `1` is ignored. -/
theorem timeout_spec_witness :
    outcomeOf (timeoutEvent (sendEvent (initState 1) 0) 1) 1 = some Outcome.timeout ∧
    (∀ q ∈ (timeoutEvent (sendEvent (initState 1) 0) 1).activeTasks, q.1 ≠ 1) ∧
    (∃ j w w', (sendEvent (initState 1) 0).workers.get? j = some w ∧ w.id = 0 ∧
        (timeoutEvent (sendEvent (initState 1) 0) 1).workers.get? j = some w' ∧
        w'.inst.isSome = true ∧ w'.id ∉ (sendEvent (initState 1) 0).usedWorkerIds ∧
        w'.id ≠ w.id) ∧
    (∀ u, SchedReachableFrom (timeoutEvent (sendEvent (initState 1) 0) 1) u →
        ∀ k err, taskMsgEvent u k 1 err = u) :=
  timeout_spec 1 (1, 0)
    (SchedReachable.step SchedReachable.init (SchedStep.send _ 0))
    (by decide) (by decide)

end Autom8
